import Mathlib

/-!
# Verification of the PFA ("Packed File Archive") container

Shallow embedding of the `pfa` repository (reader, writer, builder, the
per-file transformation pipeline in `pfa/src/shared/data_flags.rs`, and the
diff engine in `pfadiff/src/lib.rs`).

Conventions of the embedding:
* Rust `u8` bytes are modelled as `Nat` (with explicit `< 256` well-formedness
  hypotheses where byte-ness matters); `Vec<u8>` and `String` payloads are
  `List Nat` byte lists.  Rust `String`s additionally satisfy `utf8Valid`.
* Multi-byte integers are little-endian, written with `u64le`/`readU64LE`
  (`% 2 ^ 64` truncation is explicit in `u64le`).
* A Rust panic (`unwrap`, arithmetic underflow, `chunks(0)`, out-of-bounds
  indexing) is modelled as `none` of an outer `Option`; recoverable `Result`
  errors are an inner `Except`.
* The external crates `lz4_flex`, `aes_gcm` and `reed_solomon` are
  collaborators of the verified code; they are modelled by a parameter
  structure `Prims` whose contracts (`compRoundTrip`, …) are explicit
  hypotheses of the theorems, and are instantiated by the executable
  `toyPrims` in the concrete witnesses.
-/

set_option maxHeartbeats 1000000
set_option maxRecDepth 100000

namespace Pfa

/-! ## Byte-codec primitives (little-endian integers) -/

/-- Little-endian encoding of a value into 8 bytes, as written by
`byteorder::WriteBytesExt::write_u64::<LittleEndian>` (truncation at
`2 ^ 64` is how a `u64` behaves). -/
def u64le (n : Nat) : List Nat :=
  [n % 256, n / 256 % 256, n / 256 ^ 2 % 256, n / 256 ^ 3 % 256,
   n / 256 ^ 4 % 256, n / 256 ^ 5 % 256, n / 256 ^ 6 % 256, n / 256 ^ 7 % 256]

/-- Little-endian decoding of the first 8 bytes of a list, as read by
`byteorder::ReadBytesExt::read_u64::<LittleEndian>` (the caller checks that
8 bytes are available). -/
def readU64LE (l : List Nat) : Nat :=
  match l with
  | b0 :: b1 :: b2 :: b3 :: b4 :: b5 :: b6 :: b7 :: _ =>
      b0 + b1 * 256 + b2 * 256 ^ 2 + b3 * 256 ^ 3 + b4 * 256 ^ 4 +
      b5 * 256 ^ 5 + b6 * 256 ^ 6 + b7 * 256 ^ 7
  | _ => 0

/-- `read_u64` through a `?`/`unwrap`: fails when fewer than 8 bytes remain. -/
def readU64LEOpt (l : List Nat) : Option Nat :=
  if 8 ≤ l.length then some (readU64LE l) else none

/-- Number of continuation bytes a valid UTF-8 sequence starting with lead
byte `b` consumes from `rest` (RFC 3629 ranges: no overlong forms, no
surrogates, code points ≤ U+10FFFF); `none` when no valid sequence starts
here. -/
def utf8SeqConsumed (b : Nat) (rest : List Nat) : Option Nat :=
  if b < 128 then some 0
  else if 194 ≤ b ∧ b ≤ 223 then
    match rest with
    | c1 :: _ => if 128 ≤ c1 ∧ c1 ≤ 191 then some 1 else none
    | [] => none
  else if b = 224 then
    match rest with
    | c1 :: c2 :: _ =>
        if 160 ≤ c1 ∧ c1 ≤ 191 ∧ 128 ≤ c2 ∧ c2 ≤ 191 then some 2 else none
    | _ => none
  else if 225 ≤ b ∧ b ≤ 236 then
    match rest with
    | c1 :: c2 :: _ =>
        if 128 ≤ c1 ∧ c1 ≤ 191 ∧ 128 ≤ c2 ∧ c2 ≤ 191 then some 2 else none
    | _ => none
  else if b = 237 then
    match rest with
    | c1 :: c2 :: _ =>
        if 128 ≤ c1 ∧ c1 ≤ 159 ∧ 128 ≤ c2 ∧ c2 ≤ 191 then some 2 else none
    | _ => none
  else if 238 ≤ b ∧ b ≤ 239 then
    match rest with
    | c1 :: c2 :: _ =>
        if 128 ≤ c1 ∧ c1 ≤ 191 ∧ 128 ≤ c2 ∧ c2 ≤ 191 then some 2 else none
    | _ => none
  else if b = 240 then
    match rest with
    | c1 :: c2 :: c3 :: _ =>
        if 144 ≤ c1 ∧ c1 ≤ 191 ∧ 128 ≤ c2 ∧ c2 ≤ 191 ∧ 128 ≤ c3 ∧ c3 ≤ 191 then some 3
        else none
    | _ => none
  else if 241 ≤ b ∧ b ≤ 243 then
    match rest with
    | c1 :: c2 :: c3 :: _ =>
        if 128 ≤ c1 ∧ c1 ≤ 191 ∧ 128 ≤ c2 ∧ c2 ≤ 191 ∧ 128 ≤ c3 ∧ c3 ≤ 191 then some 3
        else none
    | _ => none
  else if b = 244 then
    match rest with
    | c1 :: c2 :: c3 :: _ =>
        if 128 ≤ c1 ∧ c1 ≤ 143 ∧ 128 ≤ c2 ∧ c2 ≤ 191 ∧ 128 ≤ c3 ∧ c3 ≤ 191 then some 3
        else none
    | _ => none
  else none

/-- Fueled worker for `utf8Valid` (structural recursion on the fuel, which
the wrapper sets to the list length — an upper bound on the number of
sequences, since each sequence consumes at least one byte). -/
def utf8ValidFuel : Nat → List Nat → Bool
  | _, [] => true
  | 0, _ :: _ => false
  | fuel + 1, b :: rest =>
      match utf8SeqConsumed b rest with
      | none => false
      | some k => utf8ValidFuel fuel (rest.drop k)

/-- UTF-8 validity of a byte sequence, the success condition of Rust's
`String::from_utf8`: the bytes decompose into valid sequences. -/
def utf8Valid (l : List Nat) : Bool :=
  utf8ValidFuel l.length l

/-- Fueled worker for `chunksOf` (structural on the fuel; the wrapper passes
the list length, an upper bound on the number of chunks for a positive
chunk size). -/
def chunksOfFuel : Nat → Nat → List Nat → List (List Nat)
  | _, _, [] => []
  | _, 0, _ :: _ => []
  | 0, _ + 1, _ :: _ => []
  | fuel + 1, n + 1, x :: xs =>
      ((x :: xs).take (n + 1)) :: chunksOfFuel fuel (n + 1) ((x :: xs).drop (n + 1))

/-- `slice::chunks`: successive sub-slices of length `n` (the last one may be
shorter).  Rust panics when `n = 0`; every call site of this definition
guards that case separately, so the value at `0` is irrelevant. -/
def chunksOf (n : Nat) (l : List Nat) : List (List Nat) :=
  chunksOfFuel l.length n l

/-! ## Transformation pipeline (`pfa/src/shared/data_flags.rs`)

The pipeline delegates compression to `lz4_flex`, encryption to `aes_gcm`
and erasure coding to `reed_solomon`.  Those crates are external
collaborators; `Prims` packages them as parameters and their contracts are
stated as explicit `Prop`s below. -/

/-- External primitives used by `DataFlags`:
* `comp` / `decomp` — `lz4_flex::compress_prepend_size` /
  `lz4_flex::decompress_size_prepended` (`none` = `DecompressError`);
* `encrypt k nonce m` / `decrypt k nonce c` — `aes_gcm::Aes256Gcm`
  (`none` = authentication failure);
* `rsEncode ecc data` / `rsDecode ecc block` — `reed_solomon::Encoder::new
  (ecc).encode` / `Decoder::new(ecc).correct(·).data()` (`none` = decode
  failure). -/
structure Prims where
  comp : List Nat → List Nat
  decomp : List Nat → Option (List Nat)
  encrypt : List Nat → List Nat → List Nat → List Nat
  decrypt : List Nat → List Nat → List Nat → Option (List Nat)
  rsEncode : Nat → List Nat → List Nat
  rsDecode : Nat → List Nat → Option (List Nat)

/-- Contract of `lz4_flex`: size-prepended decompression inverts compression. -/
def Prims.compRoundTrip (P : Prims) : Prop :=
  ∀ x, P.decomp (P.comp x) = some x

/-- Contract of `aes_gcm`: decryption with the encryption key recovers the
plaintext. -/
def Prims.decRoundTrip (P : Prims) : Prop :=
  ∀ k nonce m, k.length = 32 → P.decrypt k nonce (P.encrypt k nonce m) = some m

/-- Idealized contract of an authenticated cipher: decryption under any other
32-byte key is rejected. -/
def Prims.wrongKeyFails (P : Prims) : Prop :=
  ∀ k k' nonce m, k.length = 32 → k'.length = 32 → k' ≠ k →
    P.decrypt k' nonce (P.encrypt k nonce m) = none

/-- Contract of `reed_solomon`: decoding an uncorrupted block returns its data
portion. -/
def Prims.rsRoundTrip (P : Prims) : Prop :=
  ∀ ecc d, P.rsDecode ecc (P.rsEncode ecc d) = some d

/-- Contract of `reed_solomon`: an encoded block is the data followed by `ecc`
parity bytes. -/
def Prims.rsLen (P : Prims) : Prop :=
  ∀ ecc d, (P.rsEncode ecc d).length = d.length + ecc

/-- Executable instantiation of the external primitives, used by concrete
witnesses.  The toy cipher prepends the 32-byte key as an authentication tag,
so decryption under a different 32-byte key always fails. -/
def toyPrims : Prims where
  comp := fun x => x
  decomp := fun x => some x
  encrypt := fun k _nonce m => k ++ m
  decrypt := fun k _nonce c => if c.take 32 = k then some (c.drop 32) else none
  rsEncode := fun ecc d => d ++ List.replicate ecc 0
  rsDecode := fun ecc b => some (b.take (b.length - ecc))

/-- `DataCompressionType` of `pfa/src/shared/data_flags.rs`. -/
inductive DataCompressionType where
  | automatic : DataCompressionType
  | forced : Bool → DataCompressionType
deriving DecidableEq, Repr

/-- `DataFlags` of `pfa/src/shared/data_flags.rs`.  The source stores the
error-correction setting as an `Option<f32>` fraction and computes
`ecc_size = (percentage * 255.) as usize` inside the pipeline; `f32`
arithmetic is outside this embedding, so the field holds that integer result
directly (`p ∈ (0, 1]` maps to `ecc_size ∈ [0, 255]`, with `p = 1.0` mapping
to exactly `255`). -/
structure DataFlags where
  compression : DataCompressionType
  encryptionKey : Option (List Nat)
  errorCorrection : Option Nat
deriving DecidableEq, Repr

/-- `DataFlags::no_compression()`. -/
def DataFlags.noCompression : DataFlags :=
  { compression := .forced false, encryptionKey := none, errorCorrection := none }

/-- `DataFlags::forced_compression()`. -/
def DataFlags.forcedCompression : DataFlags :=
  { compression := .forced true, encryptionKey := none, errorCorrection := none }

/-- `DataFlags::auto()`. -/
def DataFlags.auto : DataFlags :=
  { compression := .automatic, encryptionKey := none, errorCorrection := none }

/-- Bit masks `COMPRESSION`, `ENCRYPTION`, `ERROR_CORRECTION`, `RESERVED`. -/
def compressionBit : Nat := 1
def encryptionBit : Nat := 2
def errorCorrectionBit : Nat := 4
def reservedBits : Nat := 248

/-- `DataFlags::process_content_and_generate_flags` (forward pipeline).
The 12-byte AES-GCM nonce is drawn from a CSPRNG in the source; it is a
parameter here.  `none` models a Rust panic: `contents.chunks(block_size)`
panics when `block_size = 0`, i.e. when `ecc_size = 255`. -/
def processContentAndGenerateFlags (P : Prims) (flags : DataFlags)
    (nonce fileData : List Nat) : Option (List Nat × Nat) :=
  let auto :=
    match flags.compression with
    | .automatic =>
        let compressedBytes := P.comp fileData
        if compressedBytes.length < fileData.length then
          (compressedBytes, DataCompressionType.forced true, true)
        else
          (fileData, DataCompressionType.forced false, false)
    | c => (fileData, c, false)
  match auto with
  | (contents0, compression, alreadyCompressed) =>
    let step :=
      match compression with
      | .forced true =>
          some (if alreadyCompressed then contents0 else P.comp contents0, compressionBit)
      | .forced false => some (contents0, 0)
      | .automatic => none
    match step with
    | none => none
    | some (contents1, bits1) =>
      let (contents2, bits2) :=
        match flags.encryptionKey with
        | some key =>
            (u64le nonce.length ++ nonce ++ P.encrypt key nonce contents1,
             bits1 ||| encryptionBit)
        | none => (contents1, bits1)
      match flags.errorCorrection with
      | some eccSize =>
          let blockSize := 255 - eccSize
          if blockSize = 0 then none
          else
            let header := P.rsEncode 4 (u64le eccSize)
            let body := (chunksOf blockSize contents2).map (P.rsEncode eccSize)
            some (header ++ body.flatten, (bits2 ||| errorCorrectionBit) ||| reservedBits)
      | none => some (contents2, bits2 ||| reservedBits)

/-- `PfaError` variants of `pfa/src/lib.rs` reachable from the inverse
pipeline. -/
inductive PfaPipelineError where
  | decryptUnencryptedFile : PfaPipelineError
  | fileDecrypt : PfaPipelineError
  | encryptedFileKeyNotProvided : PfaPipelineError
  | ioRead : PfaPipelineError
  | failedDecompression : PfaPipelineError
deriving DecidableEq, Repr

/-- The list of chunk lengths the inverse error-correction stage infers from
the payload length (`num_chunks` full 255-byte chunks plus an optional
remainder). -/
def eccChunkSizes (allChunksLen : Nat) : List Nat :=
  List.replicate (allChunksLen / 255) 255 ++
    (if allChunksLen % 255 ≠ 0 then [allChunksLen % 255] else [])

/-- The per-chunk loop of the inverse error-correction stage: slice the
stream by `sizes`, Reed–Solomon decode each chunk (`unwrap`: failure is a
panic) and concatenate the data portions. -/
def eccDecodeChunks (P : Prims) (eccSize : Nat) :
    List Nat → List Nat → Option (List Nat)
  | [], _ => some []
  | size :: sizes, stream =>
      if stream.length < size then none
      else
        match P.rsDecode eccSize (stream.take size) with
        | none => none
        | some d =>
            match eccDecodeChunks P eccSize sizes (stream.drop size) with
            | none => none
            | some rest => some (d ++ rest)

/-- The error-correction half of `DataFlags::unprocess_contents_from_flags`
(lines 168–197 of `data_flags.rs`).  Every failure on this path is an
`unwrap`, i.e. a panic, modelled as `none`: the `contents.len() - 12`
underflow for short payloads, the header/chunk `Decoder::correct` calls, and
the `read_u64` of the decoded header. -/
def eccStage (P : Prims) (contents : List Nat) : Option (List Nat) :=
  if contents.length < 12 then none
  else
    let allChunksLen := contents.length - 12
    match P.rsDecode 4 (contents.take 12) with
    | none => none
    | some headerData =>
        match readU64LEOpt headerData with
        | none => none
        | some eccSize =>
            eccDecodeChunks P eccSize (eccChunkSizes allChunksLen) (contents.drop 12)

/-- `DataFlags::unprocess_contents_from_flags` (inverse pipeline).  The outer
`Option` is a Rust panic (the error-correction stage only unwraps); the
inner `Except` is the `Result<(), PfaError>` of the source. -/
def unprocessContentsFromFlags (P : Prims) (bitfield : Nat) (contents : List Nat)
    (key : Option (List Nat)) : Option (Except PfaPipelineError (List Nat)) :=
  let stage1 :=
    if bitfield &&& errorCorrectionBit ≠ 0 then eccStage P contents
    else some contents
  match stage1 with
  | none => none
  | some c1 =>
    let stage2 : Except PfaPipelineError (List Nat) :=
      match key with
      | some k =>
          if bitfield &&& encryptionBit = 0 then .error .decryptUnencryptedFile
          else if c1.length < 8 then .error .ioRead
          else
            let nonceLength := readU64LE c1
            if c1.length < 8 + nonceLength then .error .ioRead
            else
              let nonce := (c1.drop 8).take nonceLength
              match P.decrypt k nonce (c1.drop (8 + nonceLength)) with
              | none => .error .fileDecrypt
              | some d => .ok d
      | none =>
          if bitfield &&& encryptionBit ≠ 0 then .error .encryptedFileKeyNotProvided
          else .ok c1
    match stage2 with
    | .error e => some (.error e)
    | .ok c2 =>
        if bitfield &&& compressionBit ≠ 0 then
          match P.decomp c2 with
          | none => some (.error .failedDecompression)
          | some d => some (.ok d)
        else some (.ok c2)

/-! ## Archive writer (`src/writer/pfa_writer.rs`, `src/writer/pfa_builder.rs`)

The writer revision in `src/` stores file contents verbatim (no pipeline).
Node names are Rust `String`s, modelled as UTF-8 byte lists. -/

/-- `PfaPath` of the writer (`PfaFile` / `PfaDirectory` collapsed into one
inductive: a file carries its contents, a directory its children). -/
inductive WNode where
  | file (name : List Nat) (contents : List Nat)
  | dir (name : List Nat) (children : List WNode)

/-- The name of a node. -/
def nodeName : WNode → List Nat
  | .file n _ => n
  | .dir n _ => n

mutual

/-- Number of catalog entries contributed by the subtree below a node's own
slot (0 for a file; children plus their subtrees for a directory). -/
def descCount : WNode → Nat
  | .file _ _ => 0
  | .dir _ cs => cs.length + descList cs

/-- Sum of `descCount` over a list of children. -/
def descList : List WNode → Nat
  | [] => 0
  | c :: rest => descCount c + descList rest

end

mutual

/-- Number of data-region bytes contributed by a node. -/
def dataCount : WNode → Nat
  | .file _ c => c.length
  | .dir _ cs => dataList cs

/-- Sum of `dataCount` over a list of children. -/
def dataList : List WNode → Nat
  | [] => 0
  | c :: rest => dataCount c + dataList rest

end

mutual

/-- Contribution of one child to the running entry counter `catalog_len` of
`PfaWriter::write_catalog`: its own entry plus, for directories, its
subtree's entries (`state.catalog_len += 1` at lines 171 and 191). -/
def catalogLenNode : WNode → Nat
  | .file _ _ => 1
  | .dir _ gcs => 1 + catalogLenList gcs

/-- The running entry counter over a child list. -/
def catalogLenList : List WNode → Nat
  | [] => 0
  | c :: rest => catalogLenNode c + catalogLenList rest

end

/-- A catalog entry as assembled by the writer: `PfaDataSlice` for files
(`size`, byte `offset` into the data region) and `PfaCatalogSlice` for
directories (`size` children, `index` displacement in entries to the first
child). -/
inductive WSlice where
  | data (size offset : Nat)
  | catalog (size index : Nat)
deriving DecidableEq, Repr

/-- A catalog entry before byte serialization. -/
structure WEntry where
  name : List Nat
  slice : WSlice
deriving DecidableEq, Repr

/-- The slot entries of one directory's child run, in child order.

`write_catalog_inner` pre-allocates one 48-byte slot per child and patches
each one during the sequential pass.  For the child at position `j` of a run
of `n` children, a directory slot's `index` field is
`(end_pos - slot_pos) / 48` measured *before* recursing, i.e. the `n - j`
remaining slots of the run plus the entries already appended for earlier
directory siblings; `acc` carries that second summand.  A file slot's
`offset` field is `writer.data.len()` at processing time; `dOfs` carries it. -/
def slotsOf : List WNode → Nat → Nat → List WEntry
  | [], _, _ => []
  | .file n c :: rest, dOfs, acc =>
      ⟨n, .data c.length dOfs⟩ :: slotsOf rest (dOfs + c.length) acc
  | .dir n gcs :: rest, dOfs, acc =>
      ⟨n, .catalog gcs.length (1 + rest.length + acc)⟩ ::
        slotsOf rest (dOfs + dataList gcs) (acc + (gcs.length + descList gcs))

mutual

/-- The subtree entries one child appends after its run's slots: nothing for
a file, the child's own run (slots then tails) for a directory — exactly
what `write_catalog_inner`'s recursion appends at the end of the buffer. -/
def tailsNode : WNode → Nat → List WEntry
  | .file _ _, _ => []
  | .dir _ gcs, dOfs => slotsOf gcs dOfs 0 ++ tailsOf gcs dOfs

/-- The entries appended after a run's slots, for each child in order. -/
def tailsOf : List WNode → Nat → List WEntry
  | [], _ => []
  | c :: rest, dOfs => tailsNode c dOfs ++ tailsOf rest (dOfs + dataCount c)

end

mutual

/-- Data-region bytes contributed by one node (file contents, or the
subtree's files depth-first). -/
def dataNode : WNode → List Nat
  | .file _ c => c
  | .dir _ gcs => dataOf gcs

/-- The data region: file contents appended in depth-first child order
(`state.writer.data.append` at line 183). -/
def dataOf : List WNode → List Nat
  | [] => []
  | c :: rest => dataNode c ++ dataOf rest

end

/-- Error values of the writer/builder (`PfaError::CustomError` with the
corresponding message strings in the source). -/
inductive PfaWrError where
  | stringTooLarge
  | createDirWhereFolderExists
  | couldNotGetDirectory
  | createFileNoContent
  | fileNameTooLarge
  | createFileInNonDirectory
  | addDirectoryGivenFile
  | addFileGivenDirectory
deriving DecidableEq, Repr

/-- `PfaWriter::write_u8_sized_string`: one length byte (`string.len() as
u8`, which *truncates* modulo 256) followed by the raw bytes.  The source
has no length check here. -/
def writeU8SizedString (s : List Nat) : List Nat :=
  (s.length % 256) :: s

/-- `PfaWriter::write_nulled_fixed_size_string`: errors when the string
exceeds `size`, otherwise pads with `0x00` to exactly `size` bytes. -/
def writeNulledFixedSizeString (s : List Nat) (size : Nat) :
    Except PfaWrError (List Nat) :=
  if size < s.length then .error .stringTooLarge
  else .ok (s ++ List.replicate (size - s.length) 0)

/-- The name field written for an entry: directories get a trailing `/`
(`write_catalog_entry` formats `"{}/"`). -/
def entryNameField (e : WEntry) : List Nat :=
  match e.slice with
  | .catalog _ _ => e.name ++ [47]
  | .data _ _ => e.name

/-- One 48-byte catalog record: 32-byte null-padded name, `u64` size, `u64`
offset/index (`write_data_entry` / `write_catalog_entry`). -/
def serializeEntry (e : WEntry) : Except PfaWrError (List Nat) :=
  match writeNulledFixedSizeString (entryNameField e) 32 with
  | .error er => .error er
  | .ok nameBytes =>
      match e.slice with
      | .data size offset => .ok (nameBytes ++ u64le size ++ u64le offset)
      | .catalog size index => .ok (nameBytes ++ u64le size ++ u64le index)

/-- Serialize a list of catalog entries back to back. -/
def serializeEntries : List WEntry → Except PfaWrError (List Nat)
  | [] => .ok []
  | e :: rest =>
      match serializeEntry e with
      | .error er => .error er
      | .ok b =>
          match serializeEntries rest with
          | .error er => .error er
          | .ok bs => .ok (b ++ bs)

/-- The full catalog entry list for a root directory: the synthetic root
entry (name `""`, slice `(index = 1, size = |children|)`) followed by the
root run. -/
def catalogEntriesOf (rootName : List Nat) (cs : List WNode) : List WEntry :=
  ⟨rootName, .catalog cs.length 1⟩ :: (slotsOf cs 0 0 ++ tailsOf cs 0)

/-- `PfaWriter::generate` / `write_pfa`: watermark, header (version 1,
u8-sized archive name, empty extra data), catalog (u64 entry count then the
48-byte records), then the data region.  When the root is a single file the
synthetic root entry is skipped (the `if let PfaPath::Directory` in
`write_catalog`). -/
def PfaWriter.generate (name : List Nat) (files : WNode) :
    Except PfaWrError (List Nat) :=
  let entries :=
    match files with
    | .dir rootName cs => catalogEntriesOf rootName cs
    | .file fname fcontents => [⟨fname, .data fcontents.length 0⟩]
  let count :=
    match files with
    | .dir _ cs => 1 + catalogLenList cs
    | .file _ _ => 1
  let data :=
    match files with
    | .dir _ cs => dataOf cs
    | .file _ fcontents => fcontents
  match serializeEntries entries with
  | .error er => .error er
  | .ok entryBytes =>
      .ok ([112, 102, 97] ++ [1] ++ writeU8SizedString name ++ [0] ++
           u64le count ++ entryBytes ++ data)

/-- `PfaBuilder` (`src/writer/pfa_builder.rs`). -/
structure PfaBuilder where
  name : List Nat
  fileTree : WNode

/-- `PfaBuilder::new`: root is an empty directory named `""`. -/
def PfaBuilder.new (name : List Nat) : PfaBuilder :=
  ⟨name, .dir [] []⟩

/-- `PfaBuilder::build`. -/
def PfaBuilder.build (b : PfaBuilder) : Except PfaWrError (List Nat) :=
  PfaWriter.generate b.name b.fileTree

/-- `PfaBuilder::get_directory_index_by_name`: index of the first *directory*
child with the given name; file children are never matched. -/
def getDirectoryIndexByName (name : List Nat) : WNode → Option Nat
  | .file _ _ => none
  | .dir _ contents =>
      contents.findIdx? (fun c =>
        match c with
        | .dir n _ => n = name
        | .file _ _ => false)

/-- The walking loop of `PfaBuilder::create`: descend through `parts`,
looking up each segment with `get_directory_index_by_name` and pushing a
fresh empty directory when the lookup fails and the current node is a
directory; at the end, append the file (when `fin` is set).  The source
mutates the tree in place through a `&mut` cursor; this rebuilds the tree
along the descent path, which agrees with the source everywhere the source
returns `Ok` (error paths below the root are unreachable, see `create`). -/
def createWalk : WNode → List (List Nat) → Option (List Nat × List Nat) →
    Except PfaWrError WNode
  | node, [], fin =>
      (match fin with
       | none => .ok node
       | some (fname, fdata) =>
           match node with
           | .dir n cs => .ok (.dir n (cs ++ [.file fname fdata]))
           | .file _ _ => .error .createFileInNonDirectory)
  | node, p :: rest, fin =>
      match getDirectoryIndexByName p node with
      | some i =>
          (match node with
           | .dir n cs =>
               (match cs.get? i with
                | none => .error .couldNotGetDirectory
                | some child =>
                    match createWalk child rest fin with
                    | .error e => .error e
                    | .ok child2 => .ok (.dir n (cs.set i child2)))
           | .file _ _ => .error .couldNotGetDirectory)
      | none =>
          match node with
          | .file _ _ => .error .createDirWhereFolderExists
          | .dir n cs =>
              match createWalk (.dir p []) rest fin with
              | .error e => .error e
              | .ok child2 => .ok (.dir n (cs ++ [child2]))

/-- `PfaBuilderPath`: a parsed builder path. -/
inductive PfaBuilderPath where
  | directory (parts : List (List Nat))
  | file (parts : List (List Nat)) (name : List Nat)
deriving DecidableEq, Repr

/-- Split a byte string at every `/` (Rust `str::split('/')`): always at
least one (possibly empty) segment. -/
def splitOnSlash : List Nat → List (List Nat)
  | [] => [[]]
  | b :: rest =>
      match splitOnSlash rest with
      | [] => [[]]
      | h :: t => if b = 47 then [] :: h :: t else (b :: h) :: t

/-- `PfaBuilderPath::from(String)`: prepend `/` when missing, split on `/`;
a trailing `/` means a directory, otherwise the last segment is the file
name. -/
def PfaBuilderPath.fromString (value : List Nat) : PfaBuilderPath :=
  let value2 := if value.head? = some 47 then value else 47 :: value
  let parts := splitOnSlash value2
  if value2.getLast? = some 47 then .directory parts
  else .file parts.dropLast (parts.getLast?.getD [])

/-- `PfaBuilder::create`.  The source checks `data` *after* walking; that
difference is unobservable because `add_file` always passes `Some` and
`add_directory` never takes the file branch. -/
def PfaBuilder.create (b : PfaBuilder) (path : PfaBuilderPath)
    (data : Option (List Nat)) : Except PfaWrError PfaBuilder :=
  let parts :=
    (match path with
     | .directory ps => ps
     | .file ps _ => ps).drop 1
  let fin : Except PfaWrError (Option (List Nat × List Nat)) :=
    match path, data with
    | .file _ fname, some d => .ok (some (fname, d))
    | .file _ _, none => .error .createFileNoContent
    | .directory _, _ => .ok none
  match fin with
  | .error e => .error e
  | .ok f =>
      match createWalk b.fileTree parts f with
      | .error e => .error e
      | .ok t => .ok { b with fileTree := t }

/-- `PfaBuilder::add_directory`: append `/` when missing, parse, create. -/
def PfaBuilder.addDirectory (b : PfaBuilder) (path : List Nat) :
    Except PfaWrError PfaBuilder :=
  let path2 := if path.getLast? = some 47 then path else path ++ [47]
  match PfaBuilderPath.fromString path2 with
  | .directory ps => b.create (.directory ps) none
  | .file _ _ => .error .addDirectoryGivenFile

/-- `PfaBuilder::add_file`. -/
def PfaBuilder.addFile (b : PfaBuilder) (path : List Nat)
    (content : List Nat) : Except PfaWrError PfaBuilder :=
  match PfaBuilderPath.fromString path with
  | .file ps name => b.create (.file ps name) (some content)
  | .directory _ => .error .addFileGivenDirectory

/-! ## Archive reader (`src/reader/pfa_reader.rs`)

The reader parses header and catalog eagerly and reads file payloads lazily
by seeking into the byte source.  `PfaPath` values (`VecDeque<String>`) are
modelled as lists of byte-list segments. -/

/-- `PfaSlice` of the reader. -/
inductive PfaSlice where
  | data (offset size : Nat)
  | catalog (offset size : Nat)
deriving DecidableEq, Repr

/-- `PfaEntry`: parsed catalog entry (directory names have the trailing `/`
already stripped). -/
structure PfaEntry where
  path : List Nat
  slice : PfaSlice
deriving DecidableEq, Repr

/-- `PfaHeader`. -/
structure PfaHeader where
  version : Nat
  name : List Nat
  extraData : List Nat
deriving DecidableEq, Repr

/-- `PfaReader`: header, catalog, position of the data region, and the whole
byte source (the source keeps the seekable input; `bytes` plays that role,
with `dataIdx` the stream position after the catalog). -/
structure PfaReader where
  header : PfaHeader
  entries : List PfaEntry
  dataIdx : Nat
  bytes : List Nat
deriving DecidableEq, Repr

/-- Reader-side errors (`PfaError` variants reachable from `PfaReader::new`). -/
inductive PfaRdError where
  | invalidWatermark
  | ioRead
  | stringDecode
deriving DecidableEq, Repr

/-- `Read::read` on an in-memory cursor into a zero-initialized buffer of
size `n`: copies the available bytes (at most `n`), leaves the rest of the
buffer zeroed, and advances the position by the number of bytes actually
read.  (`read_sized_buffer` and `read_fixed_sized_string` ignore the count
with `let _ = buf.read(..)`.) -/
def readPartialAt (bytes : List Nat) (pos n : Nat) : List Nat × Nat :=
  let got := (bytes.drop pos).take n
  (got ++ List.replicate (n - got.length) 0, pos + got.length)

/-- `read_u8` (`read_exact` under the hood: fails at end of stream). -/
def readU8At (bytes : List Nat) (pos : Nat) : Option (Nat × Nat) :=
  match (bytes.drop pos).head? with
  | some b => some (b, pos + 1)
  | none => none

/-- `read_u64::<LittleEndian>` (`read_exact` of 8 bytes). -/
def readU64At (bytes : List Nat) (pos : Nat) : Option (Nat × Nat) :=
  if pos + 8 ≤ bytes.length then some (readU64LE (bytes.drop pos), pos + 8)
  else none

/-- `PfaReader::read_sized_buffer`: a u8 length then that many bytes (short
reads leave zeros). -/
def readSizedBufferAt (bytes : List Nat) (pos : Nat) :
    Except PfaRdError (List Nat × Nat) :=
  match readU8At bytes pos with
  | none => .error .ioRead
  | some (size, pos1) => .ok (readPartialAt bytes pos1 size)

/-- `PfaReader::read_sized_string`: `read_sized_buffer` plus
`String::from_utf8`. -/
def readSizedStringAt (bytes : List Nat) (pos : Nat) :
    Except PfaRdError (List Nat × Nat) :=
  match readSizedBufferAt bytes pos with
  | .error e => .error e
  | .ok (buf, pos1) =>
      if utf8Valid buf then .ok (buf, pos1) else .error .stringDecode

/-- `PfaReader::read_fixed_sized_string` with `length = 32`: read 32 bytes,
keep the prefix before the first `0x00` (or all of it), decode as UTF-8. -/
def readFixedSizedStringAt (bytes : List Nat) (pos len : Nat) :
    Except PfaRdError (List Nat × Nat) :=
  match readPartialAt bytes pos len with
  | (stringBuf, pos1) =>
      let nameBytes := stringBuf.takeWhile (· ≠ 0)
      if utf8Valid nameBytes then .ok (nameBytes, pos1) else .error .stringDecode

/-- `PfaReader::read_catalog_entry`: 32-byte name (a trailing `/` marks a
directory and is stripped), then `u64 size` and `u64 offset`, building a
`Catalog` or `Data` slice accordingly. -/
def readCatalogEntryAt (bytes : List Nat) (pos : Nat) :
    Except PfaRdError (PfaEntry × Nat) :=
  match readFixedSizedStringAt bytes pos 32 with
  | .error e => .error e
  | .ok (path, pos1) =>
      let isDirectory := path.getLast? = some 47
      match readU64At bytes pos1 with
      | none => .error .ioRead
      | some (size, pos2) =>
          match readU64At bytes pos2 with
          | none => .error .ioRead
          | some (offset, pos3) =>
              if isDirectory then
                .ok (⟨path.dropLast, .catalog offset size⟩, pos3)
              else
                .ok (⟨path, .data offset size⟩, pos3)

/-- The entry loop of `PfaReader::read_catalog`. -/
def readCatalogEntriesAt (bytes : List Nat) :
    Nat → Nat → Except PfaRdError (List PfaEntry × Nat)
  | 0, pos => .ok ([], pos)
  | n + 1, pos =>
      match readCatalogEntryAt bytes pos with
      | .error e => .error e
      | .ok (e, pos1) =>
          match readCatalogEntriesAt bytes n pos1 with
          | .error er => .error er
          | .ok (es, pos2) => .ok (e :: es, pos2)

/-- `PfaReader::new`: parse watermark, header and catalog; `dataIdx` is the
stream position afterwards. -/
def PfaReader.new (input : List Nat) : Except PfaRdError PfaReader :=
  match readPartialAt input 0 3 with
  | (watermark, pos0) =>
    if watermark ≠ [112, 102, 97] then .error .invalidWatermark
    else
      match readU8At input pos0 with
      | none => .error .ioRead
      | some (version, pos1) =>
          match readSizedStringAt input pos1 with
          | .error e => .error e
          | .ok (name, pos2) =>
              match readSizedBufferAt input pos2 with
              | .error e => .error e
              | .ok (extraData, pos3) =>
                  match readU64At input pos3 with
                  | none => .error .ioRead
                  | some (numEntries, pos4) =>
                      match readCatalogEntriesAt input numEntries pos4 with
                      | .error e => .error e
                      | .ok (entries, pos5) =>
                          .ok ⟨⟨version, name, extraData⟩, entries, pos5, input⟩

/-- `PfaPath::append`: allowed when the left side is empty or ends with an
empty segment (a directory); that trailing empty segment is replaced by the
suffix. -/
def PfaPath.append (base suffix : List (List Nat)) :
    Option (List (List Nat)) :=
  match base.getLast? with
  | some l => if l = [] then some (base.dropLast ++ suffix) else none
  | none => some suffix

/-- The result of `PfaReader::get_path`: `PfaPathContents` on success,
`notFound` for `None`, `panic` for an out-of-bounds slice/index (Rust
panics there rather than returning). -/
inductive LookupOutcome where
  | file (path : List (List Nat)) (contents : List Nat)
  | directory (path : List (List Nat)) (children : List (List (List Nat)))
  | notFound
  | panic
deriving DecidableEq, Repr

/-- The mutable state of the `loop` in `PfaReader::get_path`. -/
structure LookupState where
  index : Nat
  remaining : Option Nat
  part : List Nat
  parts : List (List Nat)
deriving DecidableEq, Repr

/-- One loop iteration either continues with a new state or produces an
outcome. -/
inductive StepResult where
  | next (s : LookupState)
  | done (o : LookupOutcome)
deriving DecidableEq, Repr

/-- The paths listed for a directory hit: data-slice children contribute
`path.append(PfaPath::from(child))`, catalog-slice children
`path.append(PfaPath::from(child + "/"))`; any `None` aborts the collect. -/
def listingOf (qs : List (List Nat)) (children : List PfaEntry) :
    Option (List (List (List Nat))) :=
  children.mapM (fun e =>
    match e.slice with
    | .data _ _ => PfaPath.append qs (splitOnSlash e.path)
    | .catalog _ _ => PfaPath.append qs (splitOnSlash (e.path ++ [47])))

/-- One iteration of the `loop` of `PfaReader::get_path` (lines 224–285):
entry bounds check, `remaining_size` decrement, name match with the
`(slice, needs_data_slice)` dispatch, and the trailing `Some(0)` check.
`qs` is the original query path (returned inside the contents),
`isDirectory` the flag computed before the loop. -/
def getPathStep (rdr : PfaReader) (qs : List (List Nat)) (isDirectory : Bool)
    (s : LookupState) : StepResult :=
  if s.index = rdr.entries.length then .done .notFound
  else
    match rdr.entries[s.index]? with
    | none => .done .panic
    | some entry =>
      let isLast := s.parts.isEmpty
      let needsDataSlice := isLast && !isDirectory
      let rem1 := s.remaining.map (· - 1)
      if entry.path = s.part then
        match entry.slice, needsDataSlice with
        | .data offset size, true =>
            if rdr.dataIdx + offset + size ≤ rdr.bytes.length then
              .done (.file qs ((rdr.bytes.drop (rdr.dataIdx + offset)).take size))
            else .done .notFound
        | .catalog offset size, false =>
            if isLast then
              if s.index + offset + size ≤ rdr.entries.length then
                match listingOf qs ((rdr.entries.drop (s.index + offset)).take size) with
                | none => .done .notFound
                | some children => .done (.directory qs children)
              else .done .panic
            else
              match s.parts with
              | [] => .done .notFound
              | p :: ps =>
                  if size = 0 then .done .notFound
                  else .next ⟨s.index + offset, some size, p, ps⟩
        | _, _ =>
            if rem1 = some 0 then .done .notFound
            else .next ⟨s.index, rem1, s.part, s.parts⟩
      else
        if rem1 = some 0 then .done .notFound
        else .next ⟨s.index + 1, rem1, s.part, s.parts⟩

/-- Run the lookup loop for at most `fuel` iterations (`none` = fuel
exhausted; the loop in the source has no bound). -/
def getPathRun (rdr : PfaReader) (qs : List (List Nat)) (isDirectory : Bool) :
    Nat → LookupState → Option LookupOutcome
  | 0, _ => none
  | fuel + 1, s =>
      match getPathStep rdr qs isDirectory s with
      | .done o => some o
      | .next s2 => getPathRun rdr qs isDirectory fuel s2

/-- `PfaReader::get_path` on a query path `qs` (its `VecDeque` of segments),
with explicit fuel for the unbounded loop: the pre-loop processing
(directory detection, trailing segment pop, emptiness check) followed by
`getPathRun`. -/
def PfaReader.getPath (rdr : PfaReader) (qs : List (List Nat)) (fuel : Nat) :
    Option LookupOutcome :=
  let isDirectory :=
    match qs.getLast? with
    | some l => l.isEmpty
    | none => false
  let parts := if isDirectory then qs.dropLast else qs
  match parts with
  | [] => some .notFound
  | p :: ps => getPathRun rdr qs isDirectory fuel ⟨0, none, p, ps⟩

/-- `get_path` reaches outcome `o` with some amount of fuel (i.e. the source
loop returns `o` after finitely many iterations). -/
def PfaReader.getPathEvals (rdr : PfaReader) (qs : List (List Nat))
    (o : LookupOutcome) : Prop :=
  ∃ fuel, rdr.getPath qs fuel = some o

/-- `get_path` terminates on query `qs`. -/
def PfaReader.getPathTerminates (rdr : PfaReader) (qs : List (List Nat)) : Prop :=
  ∃ fuel o, rdr.getPath qs fuel = some o

/-! ## Well-formed trees and the file listing -/

/-- A usable node name: non-empty, genuine bytes, no `0x00` (the 32-byte
field is null-padded and read back up to the first null), no `/` (the
directory marker and path separator). -/
def nameOkB (n : List Nat) : Bool :=
  !n.isEmpty && n.all (fun b => decide (0 < b) && decide (b < 256) && decide (b ≠ 47))

/-- Membership test among names. -/
def nameMemB (n : List Nat) : List (List Nat) → Bool
  | [] => false
  | m :: rest => decide (m = n) || nameMemB n rest

/-- Pairwise distinctness of a name list. -/
def namesDistinctB : List (List Nat) → Bool
  | [] => true
  | n :: rest => !nameMemB n rest && namesDistinctB rest

/-- The names of a list of nodes. -/
def namesOf : List WNode → List (List Nat)
  | [] => []
  | c :: rest => nodeName c :: namesOf rest

mutual

/-- Well-formedness of a writer tree node: names as in `nameOkB`, valid
UTF-8 as serialized into the 32-byte field (directories store the name with
a trailing `/`, hence the 31-byte limit; Rust `String`s are UTF-8 by
construction), byte-valued file contents, and distinct sibling names. -/
def wnodeOkB : WNode → Bool
  | .file n c =>
      nameOkB n && utf8Valid n && decide (n.length ≤ 32) &&
        c.all (fun b => decide (b < 256))
  | .dir n cs =>
      nameOkB n && utf8Valid (n ++ [47]) && decide (n.length ≤ 31) &&
        namesDistinctB (namesOf cs) && wlistOkB cs

/-- `wnodeOkB` over a list of children. -/
def wlistOkB : List WNode → Bool
  | [] => true
  | c :: rest => wnodeOkB c && wlistOkB rest

end

/-- Well-formedness of a whole archive under construction: the name fits the
u8-sized field, the root children are well-formed with distinct names, and
the catalog/data sizes fit the `u64` fields of the format. -/
def archiveOkB (name : List Nat) (cs : List WNode) : Bool :=
  decide (name.length ≤ 255) && name.all (fun b => decide (b < 256)) && utf8Valid name &&
    namesDistinctB (namesOf cs) && wlistOkB cs &&
    decide (dataList cs < 2 ^ 64) && decide (1 + catalogLenList cs < 2 ^ 64)

mutual

/-- Files of one node, as (path segments, contents) pairs. -/
def filesNode : WNode → List (List (List Nat) × List Nat)
  | .file n c => [([n], c)]
  | .dir n gcs => (filesList gcs).map (fun pc => (n :: pc.1, pc.2))

/-- All files of a tree, as (path segments from the root, contents) pairs in
depth-first child order. -/
def filesList : List WNode → List (List (List Nat) × List Nat)
  | [] => []
  | c :: rest => filesNode c ++ filesList rest

end

/-! ## Diff engine (`pfadiff/src/lib.rs`)

`create_diff` drives the *new* revision of the pfa crate (reader/writer with
`DataFlags`), whose `reader`/`writer` modules are declared in
`pfa/src/lib.rs` but missing from the sources; only `create_diff` itself is
present.  The archive abstraction below is therefore modelled from the
spec, while `createDiff` follows the source of `pfadiff/src/lib.rs`. -/

/-- Modelled from the spec: the missing `pfa::reader::PfaReader` /
`pfa::builder::PfaBuilder` of the new revision, abstracted to their
observable behaviour in §4.D–4.E of the spec — an archive is a name plus a
finite list of (rendered path string, decoded contents) pairs;
`traverse_files` visits the files in catalog order (the list order), and
`get_file`/`get_path` look a rendered path up. -/
structure SpecArchive where
  name : List Nat
  files : List (List Nat × List Nat)
deriving DecidableEq, Repr

/-- Modelled from the spec: per-file lookup (`get_file`/`get_path` returning
`Ok(None)` when absent). -/
def lookupFile (files : List (List Nat × List Nat)) (p : List Nat) :
    Option (List Nat) :=
  (files.find? (fun f => f.1 = p)).map (fun f => f.2)

/-- `.replace('/', "%")` on a rendered path. -/
def escapeSlash (s : List Nat) : List Nat :=
  s.map (fun b => if b = 47 then 37 else b)

/-- Failure of `create_diff` (the `String::from_utf8` of a changed file's
contents on either side). -/
inductive DiffError where
  | utf8
deriving DecidableEq, Repr

/-- `"/remove/"` as bytes. -/
def removeDirBytes : List Nat := [47, 114, 101, 109, 111, 118, 101, 47]

/-- `"/add/"` as bytes. -/
def addDirBytes : List Nat := [47, 97, 100, 100, 47]

/-- `"/change/"` as bytes. -/
def changeDirBytes : List Nat := [47, 99, 104, 97, 110, 103, 101, 47]

/-- `"_patch"` as bytes. -/
def patchSuffixBytes : List Nat := [95, 112, 97, 116, 99, 104]

/-- The first traversal of `create_diff` (over `old`): a path absent from
`new` is recorded as removed; a path present with different bytes is
recorded as changed with a textual patch, after both sides pass
`String::from_utf8`.  `patchText` stands for the external
`dmp::patch_make1`/`patch_to_text`. -/
def scanOldFiles (patchText : List Nat → List Nat → List Nat)
    (newFiles : List (List Nat × List Nat)) :
    List (List Nat × List Nat) →
    Except DiffError (List (List Nat) × List (List Nat × List Nat))
  | [] => .ok ([], [])
  | (p, c) :: rest =>
      match lookupFile newFiles p with
      | some nc =>
          if c ≠ nc then
            if utf8Valid c && utf8Valid nc then
              match scanOldFiles patchText newFiles rest with
              | .error e => .error e
              | .ok (rem, ch) => .ok (rem, (escapeSlash p, patchText c nc) :: ch)
            else .error .utf8
          else scanOldFiles patchText newFiles rest
      | none =>
          match scanOldFiles patchText newFiles rest with
          | .error e => .error e
          | .ok (rem, ch) => .ok (escapeSlash p :: rem, ch)

/-- The second traversal of `create_diff` (over `new`): paths absent from
`old` are recorded as added, carrying the new file's raw bytes. -/
def scanNewFiles (oldFiles : List (List Nat × List Nat)) :
    List (List Nat × List Nat) → List (List Nat × List Nat)
  | [] => []
  | (p, c) :: rest =>
      match lookupFile oldFiles p with
      | none => (escapeSlash p, c) :: scanNewFiles oldFiles rest
      | some _ => scanNewFiles oldFiles rest

/-- `create_diff` (`pfadiff/src/lib.rs`, lines 18–101): scan `old` against
`new`, scan `new` against `old`, then build the `"<old_name>_patch"` archive
with one file per removed / added / changed entry (in that insertion
order), the original path's `/`s replaced by `%` in each file name. -/
def createDiff (patchText : List Nat → List Nat → List Nat)
    (old new : SpecArchive) : Except DiffError SpecArchive :=
  match scanOldFiles patchText new.files old.files with
  | .error e => .error e
  | .ok (removed, changed) =>
      let added := scanNewFiles old.files new.files
      .ok ⟨old.name ++ patchSuffixBytes,
           removed.map (fun r => (removeDirBytes ++ r, [])) ++
           added.map (fun a => (addDirBytes ++ a.1, a.2)) ++
           changed.map (fun c => (changeDirBytes ++ c.1, c.2))⟩

/-! ## Concrete example values (used by witnesses and counterexamples) -/

/-- Example tree: `/d/f` (3 bytes), `/d/e/g` (1 byte), `/h` (1 byte). -/
def exTree : List WNode :=
  [.dir [100] [.file [102] [1, 2, 3], .dir [101] [.file [103] [9]]],
   .file [104] [7]]

/-- Example builder named `"n"` holding `exTree`. -/
def exBuilder : PfaBuilder := ⟨[110], .dir [] exTree⟩

/-- The bytes `exBuilder.build` produces. -/
def exBytes : List Nat := (exBuilder.build).toOption.getD []

/-- The reader parsed back from `exBytes`. -/
def exReader : PfaReader :=
  (PfaReader.new exBytes).toOption.getD ⟨⟨0, [], []⟩, [], 0, []⟩

/-- A tree whose single file name contains a NUL byte (`"a\x00"`): the name
fits the 32-byte field but cannot survive the null-padded encoding. -/
def nulBuilder : PfaBuilder := ⟨[110], .dir [] [.file [97, 0] [7]]⟩

/-- The bytes `nulBuilder.build` produces. -/
def nulBytes : List Nat := (nulBuilder.build).toOption.getD []

/-- The reader parsed back from `nulBytes`. -/
def nulReader : PfaReader :=
  (PfaReader.new nulBytes).toOption.getD ⟨⟨0, [], []⟩, [], 0, []⟩

/-! ## Auxiliary definitions for the correctness development -/

mutual

/-- Number of nodes in a subtree (an induction measure). -/
def nodesCount : WNode → Nat
  | .file _ _ => 1
  | .dir _ cs => 1 + nodesList cs

/-- Number of nodes in a forest. -/
def nodesList : List WNode → Nat
  | [] => 0
  | c :: rest => nodesCount c + nodesList rest

end

/-- The reader-side entry a writer entry turns into: same name, the slice
with the reader's field order (`offset`/`index` first). -/
def toPfaEntry (e : WEntry) : PfaEntry :=
  match e.slice with
  | .data size offset => ⟨e.name, .data offset size⟩
  | .catalog size index => ⟨e.name, .catalog index size⟩

/-- Byte length of the serialized header (watermark, version, u8-sized name,
empty extra data). -/
def headerLen (name : List Nat) : Nat :=
  3 + 1 + (1 + name.length) + 1

/-- Conditions under which one serialized entry parses back to
`toPfaEntry e`: a null-free UTF-8 name field of at most 32 bytes whose last
byte is `/` exactly for catalog entries, and numeric fields below `2 ^ 64`. -/
def WEntryOk (e : WEntry) : Prop :=
  (∀ b ∈ entryNameField e, 0 < b) ∧
  utf8Valid (entryNameField e) = true ∧ (entryNameField e).length ≤ 32 ∧
  (match e.slice with
   | .data s o => s < 2 ^ 64 ∧ o < 2 ^ 64 ∧ (entryNameField e).getLast? ≠ some 47
   | .catalog s i => s < 2 ^ 64 ∧ i < 2 ^ 64)

/-- The slot entry the writer leaves for a child: `c` at data offset
`dOfsj`, with `accj` entries already appended for earlier directory siblings
and `remaining` slots (itself included) until the end of its run. -/
def slotEntryOf (c : WNode) (dOfsj accj remaining : Nat) : WEntry :=
  match c with
  | .file n cnt => ⟨n, .data cnt.length dOfsj⟩
  | .dir n gcs => ⟨n, .catalog gcs.length (remaining + accj)⟩

mutual

/-- The catalog slot at entry index `idx` of `rdr` realizes node `c`: a file
child has a data slice whose bytes are its contents, in bounds; a directory
child has a catalog slice whose displacement lands on its own realized run,
in bounds. -/
def GoodNode (rdr : PfaReader) (idx : Nat) : WNode → Prop
  | .file n c =>
      ∃ o, rdr.entries[idx]? = some ⟨n, .data o c.length⟩ ∧
        (rdr.bytes.drop (rdr.dataIdx + o)).take c.length = c ∧
        rdr.dataIdx + o + c.length ≤ rdr.bytes.length
  | .dir n gcs =>
      ∃ o, rdr.entries[idx]? = some ⟨n, .catalog o gcs.length⟩ ∧
        idx + o + gcs.length ≤ rdr.entries.length ∧
        GoodRun rdr (idx + o) gcs

/-- The parsed catalog of `rdr` realizes the child list `cs` as a run of
consecutive slots starting at entry index `base`. -/
def GoodRun (rdr : PfaReader) (base : Nat) : List WNode → Prop
  | [] => True
  | c :: rest => GoodNode rdr base c ∧ GoodRun rdr (base + 1) rest

end

/-- A unique descent through a child list to a file: at each level the
matching child is the first with that name. -/
inductive FindsFile : List WNode → List (List Nat) → List Nat → Prop where
  | here (cs : List WNode) (j : Nat) (n c : List Nat) :
      cs[j]? = some (WNode.file n c) →
      (∀ i e, i < j → cs[i]? = some e → nodeName e ≠ n) →
      FindsFile cs [n] c
  | deeper (cs : List WNode) (j : Nat) (n : List Nat) (gcs : List WNode)
      (segs : List (List Nat)) (c : List Nat) :
      cs[j]? = some (WNode.dir n gcs) →
      (∀ i e, i < j → cs[i]? = some e → nodeName e ≠ n) →
      FindsFile gcs segs c →
      FindsFile cs (n :: segs) c

/-! # Theorems -/

/-! ## Little-endian codec lemmas -/

theorem u64le_length (n : Nat) : (u64le n).length = 8 := rfl

theorem readU64LE_u64le (n : Nat) (rest : List Nat) (h : n < 2 ^ 64) :
    readU64LE (u64le n ++ rest) = n := by
  simp only [u64le, List.cons_append, List.nil_append, readU64LE]
  omega

theorem readU64At_of_drop (bytes rest : List Nat) (pos n : Nat)
    (h : bytes.drop pos = u64le n ++ rest) (hn : n < 2 ^ 64) :
    readU64At bytes pos = some (n, pos + 8) := by
  have hlen : (bytes.drop pos).length = 8 + rest.length := by
    rw [h]; simp [u64le]; omega
  have hple : pos + 8 ≤ bytes.length := by
    rw [List.length_drop] at hlen
    rcases Nat.lt_or_ge pos bytes.length with h1 | h1
    · omega
    · exfalso
      have : bytes.length - pos = 0 := by omega
      omega
  rw [readU64At, if_pos hple, h, readU64LE_u64le n rest hn]

theorem readPartialAt_of_drop (bytes chunk rest : List Nat) (pos n : Nat)
    (h : bytes.drop pos = chunk ++ rest) (hn : chunk.length = n) :
    readPartialAt bytes pos n = (chunk, pos + n) := by
  rw [readPartialAt, h]
  simp [List.take_append_eq_append_take, hn]

theorem readU8At_of_drop (bytes rest : List Nat) (pos b : Nat)
    (h : bytes.drop pos = b :: rest) :
    readU8At bytes pos = some (b, pos + 1) := by
  rw [readU8At, h]; rfl

theorem drop_add_of_drop (bytes pre post : List Nat) (pos : Nat)
    (h : bytes.drop pos = pre ++ post) :
    bytes.drop (pos + pre.length) = post := by
  rw [← List.drop_drop, h, List.drop_left]

/-! ## Catalog-entry serialization round-trip -/

theorem takeWhile_field_pad (field : List Nat) (k : Nat)
    (h : ∀ b ∈ field, 0 < b) :
    (field ++ List.replicate k 0).takeWhile (fun b => decide (b ≠ 0)) = field := by
  induction field with
  | nil =>
      cases k with
      | zero => rfl
      | succ m =>
          simp only [List.nil_append, List.replicate_succ]
          rw [List.takeWhile_cons_of_neg]
          simp
  | cons b rest ih =>
      have hb : 0 < b := h b (by simp)
      simp only [List.cons_append]
      rw [List.takeWhile_cons_of_pos (by simp; omega)]
      rw [ih (fun x hx => h x (by simp [hx]))]

theorem serializeEntry_roundTrip (e : WEntry) (he : WEntryOk e) :
    ∃ eb, serializeEntry e = .ok eb ∧ eb.length = 48 ∧
      ∀ bytes pos rest, bytes.drop pos = eb ++ rest →
        readCatalogEntryAt bytes pos = .ok (toPfaEntry e, pos + 48) := by
  obtain ⟨hpos, hutf, hlen, hslice⟩ := he
  set f := entryNameField e with hf
  have hser :
      writeNulledFixedSizeString f 32 = .ok (f ++ List.replicate (32 - f.length) 0) := by
    rw [writeNulledFixedSizeString, if_neg (by omega)]
  have hf32 : (f ++ List.replicate (32 - f.length) 0).length = 32 := by
    simp; omega
  have htake :
      (f ++ List.replicate (32 - f.length) 0).takeWhile (fun b => decide (b ≠ 0)) = f :=
    takeWhile_field_pad f _ hpos
  cases hsl : e.slice with
  | data s o =>
      rw [hsl] at hslice
      obtain ⟨hs, ho, hlast⟩ := hslice
      have hfname : f = e.name := by rw [hf]; unfold entryNameField; rw [hsl]
      refine ⟨(f ++ List.replicate (32 - f.length) 0) ++ u64le s ++ u64le o,
        ?_, by simp [u64le]; omega, ?_⟩
      · rw [serializeEntry, ← hf, hser, hsl]
      · intro bytes pos rest hdrop
        have hd1 : bytes.drop pos =
            (f ++ List.replicate (32 - f.length) 0) ++ (u64le s ++ (u64le o ++ rest)) := by
          rw [hdrop]; simp
        have hd2 : bytes.drop (pos + 32) = u64le s ++ (u64le o ++ rest) := by
          have := drop_add_of_drop bytes _ _ pos hd1
          rwa [hf32] at this
        have hd3 : bytes.drop (pos + 32 + 8) = u64le o ++ rest := by
          have := drop_add_of_drop bytes _ _ (pos + 32) hd2
          rwa [u64le_length] at this
        have hfix : readFixedSizedStringAt bytes pos 32 = .ok (f, pos + 32) := by
          rw [readFixedSizedStringAt,
            readPartialAt_of_drop bytes _ (u64le s ++ (u64le o ++ rest)) pos 32 hd1 hf32]
          dsimp only
          rw [htake, if_pos hutf]
        rw [readCatalogEntryAt, hfix]
        dsimp only
        rw [readU64At_of_drop bytes _ (pos + 32) s hd2 hs]
        dsimp only
        rw [readU64At_of_drop bytes rest (pos + 32 + 8) o hd3 ho]
        dsimp only
        rw [if_neg hlast]
        unfold toPfaEntry
        rw [hsl]
        dsimp only
        rw [hfname]
  | catalog s i =>
      rw [hsl] at hslice
      obtain ⟨hs, hi⟩ := hslice
      have hfval : f = e.name ++ [47] := by rw [hf]; unfold entryNameField; rw [hsl]
      have hlast : f.getLast? = some 47 := by
        rw [hfval, List.getLast?_append]
        rfl
      have hdroplast : f.dropLast = e.name := by
        rw [hfval]
        exact List.dropLast_concat
      refine ⟨(f ++ List.replicate (32 - f.length) 0) ++ u64le s ++ u64le i,
        ?_, by simp [u64le]; omega, ?_⟩
      · rw [serializeEntry, ← hf, hser, hsl]
      · intro bytes pos rest hdrop
        have hd1 : bytes.drop pos =
            (f ++ List.replicate (32 - f.length) 0) ++ (u64le s ++ (u64le i ++ rest)) := by
          rw [hdrop]; simp
        have hd2 : bytes.drop (pos + 32) = u64le s ++ (u64le i ++ rest) := by
          have := drop_add_of_drop bytes _ _ pos hd1
          rwa [hf32] at this
        have hd3 : bytes.drop (pos + 32 + 8) = u64le i ++ rest := by
          have := drop_add_of_drop bytes _ _ (pos + 32) hd2
          rwa [u64le_length] at this
        have hfix : readFixedSizedStringAt bytes pos 32 = .ok (f, pos + 32) := by
          rw [readFixedSizedStringAt,
            readPartialAt_of_drop bytes _ (u64le s ++ (u64le i ++ rest)) pos 32 hd1 hf32]
          dsimp only
          rw [htake, if_pos hutf]
        rw [readCatalogEntryAt, hfix]
        dsimp only
        rw [readU64At_of_drop bytes _ (pos + 32) s hd2 hs]
        dsimp only
        rw [readU64At_of_drop bytes rest (pos + 32 + 8) i hd3 hi]
        dsimp only
        rw [if_pos hlast]
        unfold toPfaEntry
        rw [hsl]
        dsimp only
        rw [hdroplast]

theorem serializeEntries_roundTrip (es : List WEntry) (he : ∀ e ∈ es, WEntryOk e) :
    ∃ eb, serializeEntries es = .ok eb ∧ eb.length = 48 * es.length ∧
      ∀ bytes pos rest, bytes.drop pos = eb ++ rest →
        readCatalogEntriesAt bytes es.length pos =
          .ok (es.map toPfaEntry, pos + eb.length) := by
  induction es with
  | nil =>
      exact ⟨[], rfl, rfl, fun bytes pos rest _ => by simp [readCatalogEntriesAt]⟩
  | cons e tl ih =>
      obtain ⟨eb1, hs1, hl1, hp1⟩ := serializeEntry_roundTrip e (he e (by simp))
      obtain ⟨eb2, hs2, hl2, hp2⟩ := ih (fun x hx => he x (by simp [hx]))
      refine ⟨eb1 ++ eb2, ?_, ?_, ?_⟩
      · rw [serializeEntries, hs1, hs2]
      · simp [hl1, hl2]; ring
      · intro bytes pos r hdrop
        have hd1 : bytes.drop pos = eb1 ++ (eb2 ++ r) := by rw [hdrop]; simp
        have hd2 : bytes.drop (pos + 48) = eb2 ++ r := by
          have := drop_add_of_drop bytes _ _ pos hd1
          rwa [hl1] at this
        rw [List.length_cons, readCatalogEntriesAt, hp1 bytes pos (eb2 ++ r) hd1]
        dsimp only
        rw [hp2 bytes (pos + 48) r hd2]
        dsimp only
        rw [List.map_cons]
        congr 2
        simp [hl1, hl2]
        ring

/-! ## Well-formedness carries over to the emitted catalog entries -/

theorem wlistOkB_cons {c : WNode} {rest : List WNode}
    (h : wlistOkB (c :: rest) = true) :
    wnodeOkB c = true ∧ wlistOkB rest = true := by
  rw [wlistOkB, Bool.and_eq_true] at h
  exact h

theorem wnodeOkB_file {n c : List Nat} (h : wnodeOkB (.file n c) = true) :
    (∀ b ∈ n, 0 < b ∧ b < 256 ∧ b ≠ 47) ∧ n ≠ [] ∧ utf8Valid n = true ∧
      n.length ≤ 32 ∧ ∀ b ∈ c, b < 256 := by
  rw [wnodeOkB] at h
  simp only [nameOkB, Bool.and_eq_true, List.all_eq_true, decide_eq_true_eq,
    Bool.not_eq_true', List.isEmpty_iff] at h
  obtain ⟨⟨⟨⟨hemp, hall⟩, hutf⟩, hlen⟩, hc⟩ := h
  exact ⟨fun b hb => ⟨(hall b hb).1.1, (hall b hb).1.2, (hall b hb).2⟩,
    by simpa [List.isEmpty_iff] using hemp, hutf, hlen, hc⟩

theorem wnodeOkB_dir {n : List Nat} {cs : List WNode}
    (h : wnodeOkB (.dir n cs) = true) :
    (∀ b ∈ n, 0 < b ∧ b < 256 ∧ b ≠ 47) ∧ n ≠ [] ∧
      utf8Valid (n ++ [47]) = true ∧ n.length ≤ 31 ∧
      namesDistinctB (namesOf cs) = true ∧ wlistOkB cs = true := by
  rw [wnodeOkB] at h
  simp only [nameOkB, Bool.and_eq_true, List.all_eq_true, decide_eq_true_eq,
    Bool.not_eq_true', List.isEmpty_iff] at h
  obtain ⟨⟨⟨⟨⟨hemp, hall⟩, hutf⟩, hlen⟩, hnd⟩, hcs⟩ := h
  exact ⟨fun b hb => ⟨(hall b hb).1.1, (hall b hb).1.2, (hall b hb).2⟩,
    by simpa [List.isEmpty_iff] using hemp, hutf, hlen, hnd, hcs⟩

theorem getLast?_ne_of_no47 (n : List Nat) (h : ∀ b ∈ n, b ≠ 47) :
    n.getLast? ≠ some 47 := by
  intro hg
  obtain ⟨hne, heq⟩ := List.mem_getLast?_eq_getLast hg
  exact h _ (heq ▸ List.getLast_mem hne) rfl

theorem descList_cons (c : WNode) (rest : List WNode) :
    descList (c :: rest) = descCount c + descList rest := by
  rw [descList]

theorem dataList_cons (c : WNode) (rest : List WNode) :
    dataList (c :: rest) = dataCount c + dataList rest := by
  rw [dataList]

theorem descCount_file (n c : List Nat) : descCount (.file n c) = 0 := by
  rw [descCount]

theorem descCount_dir (n : List Nat) (cs : List WNode) :
    descCount (.dir n cs) = cs.length + descList cs := by
  rw [descCount]

theorem dataCount_file (n c : List Nat) : dataCount (.file n c) = c.length := by
  rw [dataCount]

theorem dataCount_dir (n : List Nat) (cs : List WNode) :
    dataCount (.dir n cs) = dataList cs := by
  rw [dataCount]

theorem slotsOf_WEntryOk (cs : List WNode) (dOfs acc : Nat)
    (hw : wlistOkB cs = true)
    (hd : dOfs + dataList cs < 2 ^ 64)
    (hc : cs.length + acc + descList cs < 2 ^ 64) :
    ∀ e ∈ slotsOf cs dOfs acc, WEntryOk e := by
  induction cs generalizing dOfs acc with
  | nil => intro e he; simp [slotsOf] at he
  | cons c rest ih =>
      obtain ⟨hwc, hwr⟩ := wlistOkB_cons hw
      intro e he
      cases c with
      | file n cnt =>
          rw [slotsOf] at he
          obtain ⟨hall, _, hutf, hlen, _⟩ := wnodeOkB_file hwc
          rw [dataList_cons, dataCount_file] at hd
          rw [descList_cons, descCount_file, List.length_cons] at hc
          rcases List.mem_cons.mp he with rfl | hmem
          · refine ⟨fun b hb => (hall b ?_).1, hutf, ?_, ?_⟩
            · simpa [entryNameField] using hb
            · simpa [entryNameField] using hlen
            · refine ⟨by omega, by omega, ?_⟩
              exact getLast?_ne_of_no47 n (fun b hb => (hall b hb).2.2)
          · exact ih (dOfs + cnt.length) acc hwr (by omega) (by omega) e hmem
      | dir n gcs =>
          rw [slotsOf] at he
          obtain ⟨hall, _, hutf, hlen, _, _⟩ := wnodeOkB_dir hwc
          rw [dataList_cons, dataCount_dir] at hd
          rw [descList_cons, descCount_dir, List.length_cons] at hc
          rcases List.mem_cons.mp he with rfl | hmem
          · refine ⟨?_, hutf, ?_, by omega, by omega⟩
            · intro b hb
              rw [entryNameField] at hb
              rcases List.mem_append.mp hb with hb | hb
              · exact (hall b hb).1
              · simp at hb; omega
            · rw [entryNameField]
              simp
              omega
          · exact ih (dOfs + dataList gcs) (acc + (gcs.length + descList gcs)) hwr
              (by omega) (by omega) e hmem

theorem nodesList_cons (c : WNode) (rest : List WNode) :
    nodesList (c :: rest) = nodesCount c + nodesList rest := by
  rw [nodesList]

theorem nodesCount_file (n c : List Nat) : nodesCount (.file n c) = 1 := by
  rw [nodesCount]

theorem nodesCount_dir (n : List Nat) (cs : List WNode) :
    nodesCount (.dir n cs) = 1 + nodesList cs := by
  rw [nodesCount]

theorem tailsOf_WEntryOk : (cs : List WNode) → (dOfs : Nat) →
    wlistOkB cs = true → dOfs + dataList cs < 2 ^ 64 → descList cs < 2 ^ 64 →
    ∀ e ∈ tailsOf cs dOfs, WEntryOk e
  | [], _, _, _, _ => by intro e he; simp [tailsOf] at he
  | .file _n cnt :: rest, dOfs, hw, hd, hc => by
      obtain ⟨_hwc, hwr⟩ := wlistOkB_cons hw
      intro e he
      rw [tailsOf, tailsNode, List.nil_append, dataCount_file] at he
      rw [dataList_cons, dataCount_file] at hd
      rw [descList_cons, descCount_file] at hc
      exact tailsOf_WEntryOk rest (dOfs + cnt.length) hwr (by omega) (by omega) e he
  | .dir n gcs :: rest, dOfs, hw, hd, hc => by
      obtain ⟨hwc, hwr⟩ := wlistOkB_cons hw
      intro e he
      rw [tailsOf, tailsNode, dataCount_dir] at he
      obtain ⟨_, _, _, _, _, hgcs⟩ := wnodeOkB_dir hwc
      rw [dataList_cons, dataCount_dir] at hd
      rw [descList_cons, descCount_dir] at hc
      rcases List.mem_append.mp he with hsub | hmem
      · rcases List.mem_append.mp hsub with hslot | htail
        · exact slotsOf_WEntryOk gcs dOfs 0 hgcs (by omega) (by omega) e hslot
        · exact tailsOf_WEntryOk gcs dOfs hgcs (by omega) (by omega) e htail
      · exact tailsOf_WEntryOk rest (dOfs + dataList gcs) hwr (by omega) (by omega) e hmem
termination_by cs _ => nodesList cs
decreasing_by
  all_goals simp [nodesList_cons, nodesCount_file, nodesCount_dir]
  all_goals omega

theorem slotsOf_length (cs : List WNode) (dOfs acc : Nat) :
    (slotsOf cs dOfs acc).length = cs.length := by
  induction cs generalizing dOfs acc with
  | nil => rfl
  | cons c rest ih =>
      cases c with
      | file n cnt => rw [slotsOf, List.length_cons, ih, List.length_cons]
      | dir n gcs => rw [slotsOf, List.length_cons, ih, List.length_cons]

theorem tailsOf_length : (cs : List WNode) → (dOfs : Nat) →
    (tailsOf cs dOfs).length = descList cs
  | [], _ => by rw [tailsOf, descList]; rfl
  | .file n cnt :: rest, dOfs => by
      rw [tailsOf, tailsNode, List.length_append,
        tailsOf_length rest (dOfs + dataCount (.file n cnt)), descList_cons,
        descCount_file]
      rfl
  | .dir n gcs :: rest, dOfs => by
      rw [tailsOf, tailsNode, descList_cons, descCount_dir]
      simp only [List.length_append]
      rw [slotsOf_length, tailsOf_length gcs dOfs,
        tailsOf_length rest (dOfs + dataCount (.dir n gcs))]
termination_by cs _ => nodesList cs
decreasing_by
  all_goals simp [nodesList_cons, nodesCount_file, nodesCount_dir]
  all_goals omega

theorem tailsNode_length (c : WNode) (dOfs : Nat) :
    (tailsNode c dOfs).length = descCount c := by
  cases c with
  | file n cnt => rw [tailsNode, descCount_file]; rfl
  | dir n gcs =>
      rw [tailsNode, List.length_append, slotsOf_length, tailsOf_length,
        descCount_dir]

theorem catalogLenList_eq : (cs : List WNode) →
    catalogLenList cs = cs.length + descList cs
  | [] => by rw [catalogLenList, descList]; rfl
  | .file n cnt :: rest => by
      rw [catalogLenList, catalogLenNode, catalogLenList_eq rest, descList_cons,
        descCount_file, List.length_cons]
      omega
  | .dir n gcs :: rest => by
      rw [catalogLenList, catalogLenNode, catalogLenList_eq gcs,
        catalogLenList_eq rest, descList_cons, descCount_dir, List.length_cons]
      omega
termination_by cs => nodesList cs
decreasing_by
  all_goals simp [nodesList_cons, nodesCount_file, nodesCount_dir]
  all_goals omega

theorem catalogEntriesOf_length (cs : List WNode) :
    (catalogEntriesOf [] cs).length = 1 + catalogLenList cs := by
  rw [catalogEntriesOf, List.length_cons, List.length_append, slotsOf_length,
    tailsOf_length, catalogLenList_eq]
  omega

theorem catalogEntriesOf_WEntryOk (cs : List WNode)
    (hw : wlistOkB cs = true)
    (hd : dataList cs < 2 ^ 64)
    (hc : 1 + catalogLenList cs < 2 ^ 64) :
    ∀ e ∈ catalogEntriesOf [] cs, WEntryOk e := by
  rw [catalogLenList_eq] at hc
  intro e he
  rw [catalogEntriesOf] at he
  rcases List.mem_cons.mp he with rfl | hmem
  · refine ⟨?_, ?_, ?_, ?_, ?_⟩
    · intro b hb
      simp [entryNameField] at hb
      omega
    · rfl
    · simp [entryNameField]
    · omega
    · omega
  · rcases List.mem_append.mp hmem with hslot | htail
    · exact slotsOf_WEntryOk cs 0 0 hw (by omega) (by omega) e hslot
    · exact tailsOf_WEntryOk cs 0 hw (by omega) (by omega) e htail

/-! ## Parsing a built archive recovers the catalog -/

theorem build_parse (name : List Nat) (cs : List WNode)
    (hok : archiveOkB name cs = true) :
    ∃ bytes eb,
      PfaBuilder.build ⟨name, .dir [] cs⟩ = .ok bytes ∧
      bytes = [112, 102, 97] ++ [1] ++ (name.length % 256 :: name) ++ [0] ++
        u64le (1 + catalogLenList cs) ++ eb ++ dataOf cs ∧
      eb.length = 48 * (1 + catalogLenList cs) ∧
      PfaReader.new bytes = .ok
        ⟨⟨1, name, []⟩, (catalogEntriesOf [] cs).map toPfaEntry,
         headerLen name + 8 + eb.length, bytes⟩ := by
  rw [archiveOkB] at hok
  simp only [Bool.and_eq_true, decide_eq_true_eq, List.all_eq_true] at hok
  obtain ⟨⟨⟨⟨⟨⟨hnlen, _hnb⟩, hnutf⟩, _hnd⟩, hw⟩, hdcap⟩, hccap⟩ := hok
  obtain ⟨eb, hser, heblen, hparse⟩ :=
    serializeEntries_roundTrip (catalogEntriesOf [] cs)
      (catalogEntriesOf_WEntryOk cs hw hdcap hccap)
  rw [catalogEntriesOf_length] at heblen
  set count := 1 + catalogLenList cs with hcount
  set bytes := [112, 102, 97] ++ [1] ++ (name.length % 256 :: name) ++ [0] ++
    u64le count ++ eb ++ dataOf cs with hbytes
  have hmod : name.length % 256 = name.length := Nat.mod_eq_of_lt (by omega)
  refine ⟨bytes, eb, ?_, rfl, heblen, ?_⟩
  · rw [PfaBuilder.build, PfaWriter.generate]
    dsimp only
    rw [hser]
    dsimp only
    rw [hbytes, writeU8SizedString]
  · -- step through PfaReader.new
    have hd0 : bytes.drop 0 = [112, 102, 97] ++
        ([1] ++ ((name.length % 256 :: name) ++ ([0] ++
          (u64le count ++ (eb ++ dataOf cs))))) := by
      rw [List.drop_zero, hbytes]
      simp
    have hd3 : bytes.drop 3 = [1] ++ ((name.length % 256 :: name) ++ ([0] ++
        (u64le count ++ (eb ++ dataOf cs)))) := by
      have := drop_add_of_drop bytes _ _ 0 hd0
      simpa using this
    have hd4 : bytes.drop 4 = (name.length % 256 :: name) ++ ([0] ++
        (u64le count ++ (eb ++ dataOf cs))) := by
      have := drop_add_of_drop bytes _ _ 3 hd3
      simpa using this
    have hd5 : bytes.drop 5 = name ++ ([0] ++ (u64le count ++ (eb ++ dataOf cs))) := by
      have : bytes.drop 4 = [name.length % 256] ++
          (name ++ ([0] ++ (u64le count ++ (eb ++ dataOf cs)))) := by
        rw [hd4]; simp
      have := drop_add_of_drop bytes _ _ 4 this
      simpa using this
    have hd5n : bytes.drop (5 + name.length) =
        [0] ++ (u64le count ++ (eb ++ dataOf cs)) := by
      have := drop_add_of_drop bytes _ _ 5 hd5
      simpa using this
    have hd6n : bytes.drop (5 + name.length + 1) = u64le count ++ (eb ++ dataOf cs) := by
      have := drop_add_of_drop bytes _ _ (5 + name.length) hd5n
      simpa using this
    have hd7n : bytes.drop (5 + name.length + 1 + 8) = eb ++ dataOf cs := by
      have := drop_add_of_drop bytes _ _ (5 + name.length + 1) hd6n
      simpa [u64le_length] using this
    have hwater : readPartialAt bytes 0 3 = ([112, 102, 97], 3) :=
      readPartialAt_of_drop bytes _ _ 0 3 hd0 rfl
    have hver : readU8At bytes 3 = some (1, 4) := by
      apply readU8At_of_drop bytes _ 3 1
      rw [hd3]; rfl
    have hnameu8 : readU8At bytes 4 = some (name.length % 256, 5) := by
      apply readU8At_of_drop bytes _ 4 (name.length % 256)
      rw [hd4]; rfl
    have hnamebuf : readPartialAt bytes 5 name.length = (name, 5 + name.length) := by
      apply readPartialAt_of_drop bytes name _ 5 name.length hd5 rfl
    have hextra : readU8At bytes (5 + name.length) = some (0, 5 + name.length + 1) := by
      apply readU8At_of_drop bytes _ (5 + name.length) 0
      rw [hd5n]; rfl
    have hcountread : readU64At bytes (5 + name.length + 1) =
        some (count, 5 + name.length + 1 + 8) :=
      readU64At_of_drop bytes _ (5 + name.length + 1) count hd6n (by omega)
    have hentries : readCatalogEntriesAt bytes count (5 + name.length + 1 + 8) =
        .ok ((catalogEntriesOf [] cs).map toPfaEntry,
          5 + name.length + 1 + 8 + eb.length) := by
      have := hparse bytes (5 + name.length + 1 + 8) (dataOf cs) hd7n
      rwa [catalogEntriesOf_length, ← hcount] at this
    rw [PfaReader.new, hwater]
    dsimp only
    rw [if_neg (by decide)]
    rw [hver]
    dsimp only
    simp only [readSizedStringAt, readSizedBufferAt]
    rw [hnameu8]
    dsimp only
    rw [hmod, hnamebuf]
    dsimp only
    rw [if_pos hnutf]
    have hpart0 : readPartialAt bytes (5 + name.length + 1) 0 =
        ([], 5 + name.length + 1) := by
      simp [readPartialAt]
    simp only [readSizedBufferAt]
    rw [hextra]
    dsimp only
    rw [hpart0]
    dsimp only
    rw [hcountread]
    dsimp only
    rw [hentries]
    dsimp only
    rw [headerLen]
    have harith : 3 + 1 + (1 + name.length) + 1 + 8 = 5 + name.length + 1 + 8 := by
      omega
    rw [harith]

/-! ## Layout of the emitted catalog -/

theorem dataList_append (l1 l2 : List WNode) :
    dataList (l1 ++ l2) = dataList l1 + dataList l2 := by
  induction l1 with
  | nil => rw [List.nil_append, dataList]; omega
  | cons c rest ih =>
      rw [List.cons_append, dataList_cons, dataList_cons, ih]
      omega

theorem descList_append (l1 l2 : List WNode) :
    descList (l1 ++ l2) = descList l1 + descList l2 := by
  induction l1 with
  | nil => rw [List.nil_append, descList]; omega
  | cons c rest ih =>
      rw [List.cons_append, descList_cons, descList_cons, ih]
      omega

theorem dataOf_append (l1 l2 : List WNode) :
    dataOf (l1 ++ l2) = dataOf l1 ++ dataOf l2 := by
  induction l1 with
  | nil => rw [List.nil_append, dataOf, List.nil_append]
  | cons c rest ih =>
      rw [List.cons_append, dataOf, dataOf, ih, List.append_assoc]

theorem dataOf_length : (cs : List WNode) → (dataOf cs).length = dataList cs
  | [] => by rw [dataOf, dataList]; rfl
  | .file n c :: rest => by
      rw [dataOf, dataNode, List.length_append, dataOf_length rest, dataList_cons,
        dataCount_file]
  | .dir n gcs :: rest => by
      rw [dataOf, dataNode, List.length_append, dataOf_length gcs,
        dataOf_length rest, dataList_cons, dataCount_dir]
termination_by cs => nodesList cs
decreasing_by
  all_goals simp [nodesList_cons, nodesCount_file, nodesCount_dir]
  all_goals omega

theorem tailsOf_append (l1 l2 : List WNode) (dOfs : Nat) :
    tailsOf (l1 ++ l2) dOfs = tailsOf l1 dOfs ++ tailsOf l2 (dOfs + dataList l1) := by
  induction l1 generalizing dOfs with
  | nil =>
      rw [List.nil_append, tailsOf, List.nil_append, dataList]
      rfl
  | cons c rest ih =>
      rw [List.cons_append, tailsOf, tailsOf, ih (dOfs + dataCount c),
        List.append_assoc, dataList_cons, ← Nat.add_assoc]

theorem list_decomp {cs : List WNode} {j : Nat} {c : WNode}
    (h : cs[j]? = some c) :
    cs = cs.take j ++ c :: cs.drop (j + 1) := by
  have hj : j < cs.length := by
    by_contra hge
    rw [List.getElem?_eq_none (by omega)] at h
    exact Option.noConfusion h
  conv_lhs => rw [← List.take_append_drop j cs]
  rw [List.drop_eq_getElem_cons hj]
  have : cs[j] = c := by
    have := List.getElem?_eq_getElem hj
    rw [h] at this
    exact (Option.some.injEq _ _).mp this.symm
  rw [this]

theorem dataList_split {cs : List WNode} {j : Nat} {c : WNode}
    (h : cs[j]? = some c) :
    dataList cs = dataList (cs.take j) + dataCount c + dataList (cs.drop (j + 1)) := by
  conv_lhs => rw [list_decomp h]
  rw [dataList_append, dataList_cons]
  omega

theorem descList_split {cs : List WNode} {j : Nat} {c : WNode}
    (h : cs[j]? = some c) :
    descList cs = descList (cs.take j) + descCount c + descList (cs.drop (j + 1)) := by
  conv_lhs => rw [list_decomp h]
  rw [descList_append, descList_cons]
  omega

theorem dataOf_segment {cs : List WNode} {j : Nat} {c : WNode}
    (h : cs[j]? = some c) :
    (dataOf cs).drop (dataList (cs.take j)) = dataNode c ++ dataOf (cs.drop (j + 1)) := by
  have hsplit : dataOf cs = dataOf (cs.take j) ++ (dataNode c ++ dataOf (cs.drop (j + 1))) := by
    conv_lhs => rw [list_decomp h]
    rw [dataOf_append, dataOf]
  rw [hsplit, ← dataOf_length (cs.take j), List.drop_left]

theorem slotsOf_getElem? : (cs : List WNode) → ∀ (dOfs acc j : Nat) (c : WNode),
    cs[j]? = some c →
    (slotsOf cs dOfs acc)[j]? =
      some (slotEntryOf c (dOfs + dataList (cs.take j)) (acc + descList (cs.take j))
        (cs.length - j))
  | [], _, _, j, c => by intro h; simp at h
  | c0 :: rest, dOfs, acc, 0, c => by
      intro h
      simp only [List.getElem?_cons_zero, Option.some.injEq] at h
      subst h
      cases c0 with
      | file n cnt =>
          rw [slotsOf]
          simp [slotEntryOf, List.take_zero, dataList, descList]
      | dir n gcs =>
          rw [slotsOf]
          simp only [List.getElem?_cons_zero, Option.some.injEq, slotEntryOf,
            List.take_zero, dataList, descList, List.length_cons, Nat.sub_zero,
            Nat.add_zero, WEntry.mk.injEq, WSlice.catalog.injEq, true_and]
          omega
  | c0 :: rest, dOfs, acc, j + 1, c => by
      intro h
      simp only [List.getElem?_cons_succ] at h
      cases c0 with
      | file n cnt =>
          rw [slotsOf]
          rw [List.getElem?_cons_succ]
          rw [slotsOf_getElem? rest (dOfs + cnt.length) acc j c h]
          rw [List.take_succ_cons, dataList_cons, descList_cons, dataCount_file,
            descCount_file, List.length_cons]
          have h1 : dOfs + cnt.length + dataList (rest.take j) =
              dOfs + (cnt.length + dataList (rest.take j)) := by omega
          have h2 : acc + (0 + descList (rest.take j)) =
              acc + descList (rest.take j) := by omega
          rw [h1, h2]
          have h3 : rest.length + 1 - (j + 1) = rest.length - j := by omega
          rw [h3]
      | dir n gcs =>
          rw [slotsOf]
          rw [List.getElem?_cons_succ]
          rw [slotsOf_getElem? rest (dOfs + dataList gcs)
            (acc + (gcs.length + descList gcs)) j c h]
          rw [List.take_succ_cons, dataList_cons, descList_cons, dataCount_dir,
            descCount_dir, List.length_cons]
          have h1 : dOfs + dataList gcs + dataList (rest.take j) =
              dOfs + (dataList gcs + dataList (rest.take j)) := by omega
          have h2 : acc + (gcs.length + descList gcs) + descList (rest.take j) =
              acc + (gcs.length + descList gcs + descList (rest.take j)) := by omega
          rw [h1, h2]
          have h3 : rest.length + 1 - (j + 1) = rest.length - j := by omega
          rw [h3]

theorem tailsOf_getElem? {cs : List WNode} {j : Nat} {n : List Nat}
    {gcs : List WNode} (dOfs : Nat) (h : cs[j]? = some (WNode.dir n gcs))
    (k : Nat) (hk : k < gcs.length + descList gcs) :
    (tailsOf cs dOfs)[descList (cs.take j) + k]? =
      (slotsOf gcs (dOfs + dataList (cs.take j)) 0 ++
        tailsOf gcs (dOfs + dataList (cs.take j)))[k]? := by
  have hsplit : tailsOf cs dOfs =
      tailsOf (cs.take j) dOfs ++
        ((slotsOf gcs (dOfs + dataList (cs.take j)) 0 ++
          tailsOf gcs (dOfs + dataList (cs.take j))) ++
         tailsOf (cs.drop (j + 1)) (dOfs + dataList (cs.take j) + dataList gcs)) := by
    conv_lhs => rw [list_decomp h]
    rw [tailsOf_append, tailsOf, tailsNode, dataCount_dir]
  rw [hsplit]
  rw [List.getElem?_append_right (by rw [tailsOf_length]; omega)]
  rw [tailsOf_length]
  have hidx : descList (cs.take j) + k - descList (cs.take j) = k := by omega
  rw [hidx]
  rw [List.getElem?_append_left]
  simp only [List.length_append, slotsOf_length, tailsOf_length]
  omega

theorem goodRun_intro (rdr : PfaReader) (base : Nat) (cs : List WNode)
    (h : ∀ j c, cs[j]? = some c → GoodNode rdr (base + j) c) :
    GoodRun rdr base cs := by
  induction cs generalizing base with
  | nil => rw [GoodRun]; trivial
  | cons c rest ih =>
      rw [GoodRun]
      refine ⟨?_, ?_⟩
      · have := h 0 c (by simp)
        simpa using this
      · refine ih (base + 1) (fun j c2 hj => ?_)
        have := h (j + 1) c2 (by simpa using hj)
        have harith : base + (j + 1) = base + 1 + j := by omega
        rwa [harith] at this

theorem nodesCount_le_of_getElem? : (cs : List WNode) → ∀ (j : Nat) (c : WNode),
    cs[j]? = some c → nodesCount c ≤ nodesList cs
  | [], j, c => by intro h; simp at h
  | c0 :: rest, 0, c => by
      intro h
      simp only [List.getElem?_cons_zero, Option.some.injEq] at h
      subst h
      rw [nodesList_cons]
      omega
  | c0 :: rest, j + 1, c => by
      intro h
      simp only [List.getElem?_cons_succ] at h
      have := nodesCount_le_of_getElem? rest j c h
      rw [nodesList_cons]
      omega

theorem goodRun_of_layout : (cs : List WNode) → ∀ (rdr : PfaReader)
    (base dOfs : Nat) (tail : List Nat),
    (∀ k, k < cs.length + descList cs →
      rdr.entries[base + k]? =
        ((slotsOf cs dOfs 0 ++ tailsOf cs dOfs).map toPfaEntry)[k]?) →
    base + (cs.length + descList cs) ≤ rdr.entries.length →
    rdr.bytes.drop (rdr.dataIdx + dOfs) = dataOf cs ++ tail →
    rdr.dataIdx + dOfs + dataList cs ≤ rdr.bytes.length →
    GoodRun rdr base cs := fun cs rdr base dOfs tail hE hlen hdata hbound => by
  refine goodRun_intro rdr base cs (fun j c hj => ?_)
  have hjlt : j < cs.length := by
    by_contra hge
    rw [List.getElem?_eq_none (by omega)] at hj
    exact Option.noConfusion hj
  have hslot : rdr.entries[base + j]? =
      some (toPfaEntry (slotEntryOf c (dOfs + dataList (cs.take j))
        (descList (cs.take j)) (cs.length - j))) := by
    have hEj := hE j (by omega)
    rw [List.getElem?_map] at hEj
    rw [List.getElem?_append_left (by rw [slotsOf_length]; omega)] at hEj
    rw [slotsOf_getElem? cs dOfs 0 j c hj] at hEj
    simpa using hEj
  have hdsum := dataList_split hj
  have hdescsum := descList_split hj
  have hdropj : rdr.bytes.drop (rdr.dataIdx + (dOfs + dataList (cs.take j))) =
      dataNode c ++ (dataOf (cs.drop (j + 1)) ++ tail) := by
    have h1 : rdr.dataIdx + (dOfs + dataList (cs.take j)) =
        (rdr.dataIdx + dOfs) + dataList (cs.take j) := by omega
    rw [h1, ← List.drop_drop, hdata]
    have h2 : dataList (cs.take j) ≤ (dataOf cs).length := by
      rw [dataOf_length]; omega
    rw [List.drop_append_of_le_length (by rw [dataOf_length]; omega)]
    rw [dataOf_segment hj, List.append_assoc]
  cases c with
  | file n cnt =>
      rw [GoodNode]
      refine ⟨dOfs + dataList (cs.take j), ?_, ?_, ?_⟩
      · rw [hslot]
        rfl
      · rw [hdropj]
        rw [dataNode]
        simp [List.take_append_eq_append_take]
      · rw [dataCount_file] at hdsum
        omega
  | dir n gcs =>
      rw [GoodNode]
      set dOfsj := dOfs + dataList (cs.take j) with hdofsj
      refine ⟨cs.length - j + descList (cs.take j), ?_, ?_, ?_⟩
      · rw [hslot]
        rfl
      · rw [descCount_dir] at hdescsum
        omega
      · have hbasej : base + j + (cs.length - j + descList (cs.take j)) =
            base + (cs.length + descList (cs.take j)) := by omega
        rw [hbasej]
        rw [descCount_dir] at hdescsum
        refine goodRun_of_layout gcs rdr (base + (cs.length + descList (cs.take j)))
          dOfsj (dataOf (cs.drop (j + 1)) ++ tail) ?_ (by omega) ?_ ?_
        · intro k hk
          have hEk := hE (cs.length + (descList (cs.take j) + k)) (by omega)
          have harith : base + (cs.length + (descList (cs.take j) + k)) =
              base + (cs.length + descList (cs.take j)) + k := by omega
          rw [harith] at hEk
          rw [hEk]
          rw [List.getElem?_map, List.getElem?_map]
          rw [List.getElem?_append_right (by rw [slotsOf_length]; omega)]
          rw [slotsOf_length]
          have harith2 : cs.length + (descList (cs.take j) + k) - cs.length =
              descList (cs.take j) + k := by omega
          rw [harith2]
          rw [tailsOf_getElem? dOfs hj k hk]
        · rw [dataNode] at hdropj
          exact hdropj
        · rw [dataCount_dir] at hdsum
          omega
termination_by cs => nodesList cs
decreasing_by
  have := nodesCount_le_of_getElem? cs j (.dir n gcs) hj
  rw [nodesCount_dir] at this
  omega

/-! ## The lookup loop on a realized catalog -/

theorem lt_of_getElem?_some {α : Type} {l : List α} {i : Nat} {a : α}
    (h : l[i]? = some a) : i < l.length := by
  by_contra hge
  rw [List.getElem?_eq_none (by omega)] at h
  exact Option.noConfusion h

theorem goodRun_getElem? {rdr : PfaReader} {base : Nat} {cs : List WNode}
    (hg : GoodRun rdr base cs) {i : Nat} {e : WNode} (h : cs[i]? = some e) :
    GoodNode rdr (base + i) e := by
  induction cs generalizing base i with
  | nil => simp at h
  | cons c rest ih =>
      rw [GoodRun] at hg
      cases i with
      | zero =>
          simp only [List.getElem?_cons_zero, Option.some.injEq] at h
          subst h
          exact hg.1
      | succ i2 =>
          simp only [List.getElem?_cons_succ] at h
          have := ih hg.2 h
          have harith : base + 1 + i2 = base + (i2 + 1) := by omega
          rwa [harith] at this

theorem goodNode_entry {rdr : PfaReader} {idx : Nat} {e : WNode}
    (h : GoodNode rdr idx e) :
    ∃ sl, rdr.entries[idx]? = some ⟨nodeName e, sl⟩ := by
  cases e with
  | file n c =>
      rw [GoodNode] at h
      obtain ⟨o, ho, _⟩ := h
      exact ⟨.data o c.length, by rw [ho]; rfl⟩
  | dir n gcs =>
      rw [GoodNode] at h
      obtain ⟨o, ho, _⟩ := h
      exact ⟨.catalog o gcs.length, by rw [ho]; rfl⟩

theorem run_step_next {rdr : PfaReader} {qs : List (List Nat)} {isD : Bool}
    {s s2 : LookupState} (h : getPathStep rdr qs isD s = .next s2) (fuel : Nat) :
    getPathRun rdr qs isD (fuel + 1) s = getPathRun rdr qs isD fuel s2 := by
  rw [getPathRun, h]

theorem run_step_done {rdr : PfaReader} {qs : List (List Nat)} {isD : Bool}
    {s : LookupState} {o : LookupOutcome} (h : getPathStep rdr qs isD s = .done o)
    (fuel : Nat) :
    getPathRun rdr qs isD (fuel + 1) s = some o := by
  rw [getPathRun, h]

theorem step_no_match {rdr : PfaReader} {qs : List (List Nat)} {isD : Bool}
    {i m : Nat} {s : List Nat} {parts : List (List Nat)} {entry : PfaEntry}
    (hidx : rdr.entries[i]? = some entry) (hne : entry.path ≠ s) (hm : 2 ≤ m) :
    getPathStep rdr qs isD ⟨i, some m, s, parts⟩ =
      .next ⟨i + 1, some (m - 1), s, parts⟩ := by
  rw [getPathStep]
  dsimp only
  rw [if_neg (by have := lt_of_getElem?_some hidx; omega)]
  rw [hidx]
  dsimp only
  rw [if_neg hne]
  rw [if_neg (by simp; omega)]
  rfl

theorem getPathRun_skip {rdr : PfaReader} {qs : List (List Nat)} {isD : Bool}
    {cs : List WNode} {base : Nat} (hg : GoodRun rdr base cs)
    (s : List Nat) (parts : List (List Nat)) (j : Nat) (hjlt : j < cs.length)
    (d : Nat) :
    ∀ k, j = k + d →
    (∀ i e, k ≤ i → i < j → cs[i]? = some e → nodeName e ≠ s) →
    ∀ fuel, getPathRun rdr qs isD (fuel + d) ⟨base + k, some (cs.length - k), s, parts⟩ =
      getPathRun rdr qs isD fuel ⟨base + j, some (cs.length - j), s, parts⟩ := by
  induction d with
  | zero =>
      intro k hk _ fuel
      subst hk
      rfl
  | succ d2 ih =>
      intro k hk hne fuel
      have hkj : k < j := by omega
      have hklt : k < cs.length := by omega
      obtain ⟨e, he⟩ : ∃ e, cs[k]? = some e :=
        ⟨cs[k], (List.getElem?_eq_getElem hklt)⟩
      obtain ⟨sl, hentry⟩ := goodNode_entry (goodRun_getElem? hg he)
      have hstep := @step_no_match rdr qs isD (base + k) (cs.length - k) s parts
        ⟨nodeName e, sl⟩ hentry
        (by
          have := hne k e (le_refl k) hkj he
          simpa using this)
        (by omega)
      have hrw : getPathRun rdr qs isD (fuel + (d2 + 1))
          ⟨base + k, some (cs.length - k), s, parts⟩ =
          getPathRun rdr qs isD (fuel + d2)
            ⟨base + k + 1, some (cs.length - k - 1), s, parts⟩ := by
        have : fuel + (d2 + 1) = (fuel + d2) + 1 := by omega
        rw [this, run_step_next hstep]
      rw [hrw]
      have h1 : base + k + 1 = base + (k + 1) := by omega
      have h2 : cs.length - k - 1 = cs.length - (k + 1) := by omega
      rw [h1, h2]
      exact ih (k + 1) (by omega) (fun i e hi hij hie => hne i e (by omega) hij hie) fuel

theorem step_file_hit {rdr : PfaReader} {qs : List (List Nat)}
    {i o size : Nat} {s : List Nat} {rem : Option Nat}
    (hidx : rdr.entries[i]? = some ⟨s, .data o size⟩)
    (hbound : rdr.dataIdx + o + size ≤ rdr.bytes.length) :
    getPathStep rdr qs false ⟨i, rem, s, []⟩ =
      .done (.file qs ((rdr.bytes.drop (rdr.dataIdx + o)).take size)) := by
  rw [getPathStep]
  dsimp only
  rw [if_neg (by have := lt_of_getElem?_some hidx; omega)]
  rw [hidx]
  dsimp only
  rw [if_pos rfl]
  simp only [List.isEmpty_nil, Bool.not_false, Bool.and_self]
  rw [if_pos hbound]

theorem step_dir_descend {rdr : PfaReader} {qs : List (List Nat)}
    {i o size : Nat} {s p : List Nat} {ps : List (List Nat)} {rem : Option Nat}
    (hidx : rdr.entries[i]? = some ⟨s, .catalog o size⟩)
    (hsz : size ≠ 0) :
    getPathStep rdr qs false ⟨i, rem, s, p :: ps⟩ =
      .next ⟨i + o, some size, p, ps⟩ := by
  rw [getPathStep]
  dsimp only
  rw [if_neg (by have := lt_of_getElem?_some hidx; omega)]
  rw [hidx]
  dsimp only
  rw [if_pos rfl]
  simp only [List.isEmpty_cons, Bool.false_and]
  rw [if_neg hsz]
  rfl

theorem findsFile_pos {cs : List WNode} {segs : List (List Nat)} {c : List Nat}
    (hf : FindsFile cs segs c) : 0 < cs.length := by
  cases hf with
  | here cs j n c hj _ => have := lt_of_getElem?_some hj; omega
  | deeper cs j n gcs segs c hj _ _ => have := lt_of_getElem?_some hj; omega

theorem run_findsFile {cs : List WNode} {segs : List (List Nat)} {c : List Nat}
    (hf : FindsFile cs segs c) :
    ∀ (rdr : PfaReader) (base : Nat), GoodRun rdr base cs →
    ∀ (qs : List (List Nat)) (s : List Nat) (rest : List (List Nat)),
    segs = s :: rest →
    ∃ fuel, getPathRun rdr qs false fuel ⟨base, some cs.length, s, rest⟩ =
      some (.file qs c) := by
  induction hf with
  | here cs j n cnt hj hne =>
      intro rdr base hg qs s rest hseg
      injection hseg with h1 h2
      subst h1
      subst h2
      have hjlt := lt_of_getElem?_some hj
      have hnode := goodRun_getElem? hg hj
      rw [GoodNode] at hnode
      obtain ⟨o, hentry, hcontents, hbound⟩ := hnode
      refine ⟨1 + j, ?_⟩
      have hskip := @getPathRun_skip rdr qs false cs base hg n [] j hjlt j 0
        (by omega) (fun i e hi hij hie => hne i e hij hie) 1
      simp only [Nat.add_zero, Nat.sub_zero] at hskip
      rw [hskip]
      rw [run_step_done (step_file_hit hentry hbound) 0]
      rw [hcontents]
  | deeper cs j n gcs segs2 cnt hj hne hf2 ih =>
      intro rdr base hg qs s rest hseg
      injection hseg with h1 h2
      subst h1
      subst h2
      have hjlt := lt_of_getElem?_some hj
      have hnode := goodRun_getElem? hg hj
      rw [GoodNode] at hnode
      obtain ⟨o, hentry, _hbound, hgrun⟩ := hnode
      obtain ⟨s2, rest2, hseg2⟩ : ∃ s2 rest2, segs2 = s2 :: rest2 := by
        cases hf2 with
        | here _ _ n2 _ _ _ => exact ⟨n2, [], rfl⟩
        | deeper _ _ n2 _ segs3 _ _ _ _ => exact ⟨n2, segs3, rfl⟩
      obtain ⟨fuel2, hrun2⟩ := ih rdr (base + j + o) hgrun qs s2 rest2 hseg2
      refine ⟨fuel2 + 1 + j, ?_⟩
      have hskip := @getPathRun_skip rdr qs false cs base hg n segs2 j hjlt j 0
        (by omega) (fun i e hi hij hie => hne i e hij hie) (fuel2 + 1)
      simp only [Nat.add_zero, Nat.sub_zero] at hskip
      rw [hskip]
      rw [hseg2]
      rw [run_step_next (step_dir_descend hentry (by have := findsFile_pos hf2; omega)) fuel2]
      exact hrun2

/-! ## From tree membership to the unique descent -/

theorem nameMemB_of_getElem? : (cs : List WNode) → ∀ (j : Nat) (e : WNode),
    cs[j]? = some e → nameMemB (nodeName e) (namesOf cs) = true
  | [], j, e => by intro h; simp at h
  | c :: rest, 0, e => by
      intro h
      simp only [List.getElem?_cons_zero, Option.some.injEq] at h
      subst h
      rw [namesOf, nameMemB]
      simp
  | c :: rest, j + 1, e => by
      intro h
      simp only [List.getElem?_cons_succ] at h
      rw [namesOf, nameMemB]
      rw [nameMemB_of_getElem? rest j e h]
      simp

theorem findsFile_head_mem {cs : List WNode} {segs : List (List Nat)} {c : List Nat}
    (hf : FindsFile cs segs c) : ∀ (n : List Nat) (rest : List (List Nat)),
    segs = n :: rest → nameMemB n (namesOf cs) = true := by
  cases hf with
  | here cs j n2 c hj _ =>
      intro n rest hseg
      injection hseg with h1 h2
      subst h1
      have := nameMemB_of_getElem? cs j _ hj
      simpa [nodeName] using this
  | deeper cs j n2 gcs segs2 c hj _ _ =>
      intro n rest hseg
      injection hseg with h1 h2
      subst h1
      have := nameMemB_of_getElem? cs j _ hj
      simpa [nodeName] using this

theorem nameMemB_ne {n m : List Nat} {ns : List (List Nat)}
    (h1 : nameMemB n ns = true) (h2 : nameMemB m ns = false) : m ≠ n := by
  intro he
  subst he
  rw [h1] at h2
  exact Bool.noConfusion h2

theorem findsFile_lift {c0 : WNode} {rest : List WNode} {segs : List (List Nat)}
    {c : List Nat} (hf : FindsFile rest segs c)
    (hname : ∀ (n : List Nat) (t : List (List Nat)), segs = n :: t → nodeName c0 ≠ n) :
    FindsFile (c0 :: rest) segs c := by
  cases hf with
  | here cs j n cnt hj hne =>
      refine FindsFile.here _ (j + 1) n c (by simpa using hj) ?_
      intro i e hi hie
      cases i with
      | zero =>
          simp only [List.getElem?_cons_zero, Option.some.injEq] at hie
          subst hie
          exact hname n [] rfl
      | succ i2 =>
          simp only [List.getElem?_cons_succ] at hie
          exact hne i2 e (by omega) hie
  | deeper cs j n gcs segs2 cnt hj hne hrec =>
      refine FindsFile.deeper _ (j + 1) n gcs segs2 c (by simpa using hj) ?_ hrec
      intro i e hi hie
      cases i with
      | zero =>
          simp only [List.getElem?_cons_zero, Option.some.injEq] at hie
          subst hie
          exact hname n segs2 rfl
      | succ i2 =>
          simp only [List.getElem?_cons_succ] at hie
          exact hne i2 e (by omega) hie

theorem findsFile_of_mem : (cs : List WNode) → wlistOkB cs = true →
    namesDistinctB (namesOf cs) = true →
    ∀ (segs : List (List Nat)) (c : List Nat), (segs, c) ∈ filesList cs →
    FindsFile cs segs c ∧ ∀ s ∈ segs, s ≠ []
  | [], _, _, segs, c => by intro h; rw [filesList] at h; simp at h
  | .file n cnt :: rest, hw, hd, segs, c => by
      intro hmem
      obtain ⟨hwc, hwr⟩ := wlistOkB_cons hw
      rw [namesOf, namesDistinctB] at hd
      simp only [Bool.and_eq_true, Bool.not_eq_true'] at hd
      obtain ⟨hdne, hdr⟩ := hd
      rw [filesList, List.mem_append] at hmem
      cases hmem with
      | inl hin =>
          rw [filesNode] at hin
          simp only [List.mem_singleton, Prod.mk.injEq] at hin
          obtain ⟨rfl, rfl⟩ := hin
          have hnn := (wnodeOkB_file hwc).2.1
          refine ⟨FindsFile.here _ 0 n c (by simp) (by intro i e hi _; omega), ?_⟩
          intro s hs
          simp only [List.mem_singleton] at hs
          subst hs
          exact hnn
      | inr hin =>
          obtain ⟨hrec, hne⟩ := findsFile_of_mem rest hwr hdr segs c hin
          refine ⟨findsFile_lift hrec ?_, hne⟩
          intro m t hseg
          have hm := findsFile_head_mem hrec m t hseg
          exact nameMemB_ne hm hdne
  | .dir n gcs :: rest, hw, hd, segs, c => by
      intro hmem
      obtain ⟨hwc, hwr⟩ := wlistOkB_cons hw
      rw [namesOf, namesDistinctB] at hd
      simp only [Bool.and_eq_true, Bool.not_eq_true'] at hd
      obtain ⟨hdne, hdr⟩ := hd
      rw [filesList, List.mem_append] at hmem
      cases hmem with
      | inl hin =>
          rw [filesNode] at hin
          simp only [List.mem_map, Prod.mk.injEq] at hin
          obtain ⟨⟨segs2, c2⟩, hmem2, h1, h2⟩ := hin
          subst h1
          subst h2
          obtain ⟨_, hnn, _, _, hdg, hwg⟩ := wnodeOkB_dir hwc
          obtain ⟨hrec, hne⟩ := findsFile_of_mem gcs hwg hdg segs2 c2 hmem2
          refine ⟨FindsFile.deeper _ 0 n gcs segs2 c2 (by simp)
            (by intro i e hi _; omega) hrec, ?_⟩
          intro s hs
          rcases List.mem_cons.mp hs with rfl | hs2
          · exact hnn
          · exact hne s hs2
      | inr hin =>
          obtain ⟨hrec, hne⟩ := findsFile_of_mem rest hwr hdr segs c hin
          refine ⟨findsFile_lift hrec ?_, hne⟩
          intro m t hseg
          have hm := findsFile_head_mem hrec m t hseg
          exact nameMemB_ne hm hdne
termination_by cs => nodesList cs
decreasing_by
  · rw [nodesList_cons, nodesCount_file]
    omega
  · rw [nodesList_cons, nodesCount_dir]
    omega
  · rw [nodesList_cons, nodesCount_dir]
    omega

/-! ## The parsed reader realizes the tree -/

theorem build_reader_goodRun (name : List Nat) (cs : List WNode)
    (hok : archiveOkB name cs = true) :
    ∃ bytes rdr, PfaBuilder.build ⟨name, .dir [] cs⟩ = .ok bytes ∧
      PfaReader.new bytes = .ok rdr ∧
      rdr.entries[0]? = some ⟨[], .catalog 1 cs.length⟩ ∧
      GoodRun rdr 1 cs := by
  obtain ⟨bytes, eb, hbuild, hbytes, heblen, hnew⟩ := build_parse name cs hok
  refine ⟨bytes, ⟨⟨1, name, []⟩, (catalogEntriesOf [] cs).map toPfaEntry,
    headerLen name + 8 + eb.length, bytes⟩, hbuild, hnew, ?_, ?_⟩
  · rw [catalogEntriesOf, List.map_cons, List.getElem?_cons_zero]
    rfl
  · have hslen := slotsOf_length cs 0 0
    have htlen := tailsOf_length cs 0
    refine goodRun_of_layout cs _ 1 0 [] ?_ ?_ ?_ ?_
    · intro k hk
      show ((catalogEntriesOf [] cs).map toPfaEntry)[1 + k]? = _
      rw [catalogEntriesOf, List.map_cons]
      have h1 : 1 + k = k + 1 := by omega
      rw [h1, List.getElem?_cons_succ]
    · show 1 + (cs.length + descList cs) ≤ ((catalogEntriesOf [] cs).map toPfaEntry).length
      rw [List.length_map, catalogEntriesOf]
      simp only [List.length_cons, List.length_append]
      omega
    · show bytes.drop (headerLen name + 8 + eb.length + 0) = dataOf cs ++ []
      rw [List.append_nil, hbytes]
      have hlen2 : ([112, 102, 97] ++ [1] ++ (name.length % 256 :: name) ++ [0] ++
          u64le (1 + catalogLenList cs) ++ eb).length =
          headerLen name + 8 + eb.length + 0 := by
        simp only [List.length_append, List.length_cons, List.length_nil,
          u64le_length, headerLen]
        omega
      rw [← hlen2]
      exact List.drop_left _ _
    · show headerLen name + 8 + eb.length + 0 + dataList cs ≤ bytes.length
      rw [hbytes]
      simp only [List.length_append, List.length_cons, List.length_nil,
        u64le_length, headerLen, dataOf_length]
      omega

/-! ## Determinism of the fueled loop -/

theorem getPathRun_mono {rdr : PfaReader} {qs : List (List Nat)} {isD : Bool} :
    ∀ (f1 f2 : Nat) (s : LookupState) (o : LookupOutcome), f1 ≤ f2 →
    getPathRun rdr qs isD f1 s = some o → getPathRun rdr qs isD f2 s = some o
  | 0, f2, s, o => by
      intro _ h
      rw [getPathRun] at h
      exact Option.noConfusion h
  | f1 + 1, f2, s, o => by
      intro hle h
      obtain ⟨f2p, rfl⟩ : ∃ f2p, f2 = f2p + 1 := ⟨f2 - 1, by omega⟩
      rw [getPathRun] at h ⊢
      cases hstep : getPathStep rdr qs isD s with
      | done o2 => rw [hstep] at h; exact h
      | next s2 => rw [hstep] at h; exact getPathRun_mono f1 f2p s2 o (by omega) h

theorem getPath_det {rdr : PfaReader} {qs : List (List Nat)} {f1 f2 : Nat}
    {o1 o2 : LookupOutcome} (h1 : rdr.getPath qs f1 = some o1)
    (h2 : rdr.getPath qs f2 = some o2) : o1 = o2 := by
  rw [PfaReader.getPath] at h1 h2
  cases hp : (if (match qs.getLast? with
      | some l => l.isEmpty
      | none => false) = true then qs.dropLast else qs) with
  | nil =>
      rw [hp] at h1 h2
      dsimp only at h1 h2
      injection h1 with h1b
      injection h2 with h2b
      rw [← h1b, ← h2b]
  | cons p ps =>
      rw [hp] at h1 h2
      dsimp only at h1 h2
      have ha := getPathRun_mono f1 (max f1 f2) _ _ (by omega) h1
      have hb := getPathRun_mono f2 (max f1 f2) _ _ (by omega) h2
      rw [ha] at hb
      exact Option.some_inj.mp hb

theorem getPath_eq_run (rdr : PfaReader) (p0 lastn : List Nat) (ps : List (List Nat))
    (hlast : (p0 :: ps).getLast? = some lastn) (hne : lastn.isEmpty = false)
    (fuel : Nat) :
    rdr.getPath (p0 :: ps) fuel =
      getPathRun rdr (p0 :: ps) false fuel ⟨0, none, p0, ps⟩ := by
  rw [PfaReader.getPath, hlast]
  dsimp only
  rw [hne]
  rfl

/-! ## Claim C1 -/

/-- C1, corrected: building an archive from a well-formed tree (`archiveOkB`:
sibling names distinct, non-empty, free of `0x00`, `0x2F` and values over
255, valid UTF-8, within the 32-byte field; contents bytes; sizes below
`2 ^ 64`) succeeds, the bytes parse back, and `get_path` on every file path
of the tree returns exactly that file's contents.  The original claim only
required names to "fit the 32-byte name field", which is refuted by a name
containing a NUL byte (see the counterexample): the field is null-padded and
read back up to the first null, so the lookup misses. -/
theorem build_getPath_roundTrip (name : List Nat) (cs : List WNode)
    (hok : archiveOkB name cs = true) :
    ∃ bytes rdr, PfaBuilder.build ⟨name, .dir [] cs⟩ = .ok bytes ∧
      PfaReader.new bytes = .ok rdr ∧
      ∀ segs c, (segs, c) ∈ filesList cs →
        rdr.getPathEvals ([] :: segs) (.file ([] :: segs) c) := by
  obtain ⟨bytes, rdr, hbuild, hnew, hroot, hgood⟩ := build_reader_goodRun name cs hok
  refine ⟨bytes, rdr, hbuild, hnew, ?_⟩
  intro segs c hmem
  have hok2 := hok
  rw [archiveOkB] at hok2
  simp only [Bool.and_eq_true, decide_eq_true_eq, List.all_eq_true] at hok2
  obtain ⟨⟨⟨⟨⟨⟨_, _⟩, _⟩, hdist⟩, hw⟩, _⟩, _⟩ := hok2
  obtain ⟨hf, hne⟩ := findsFile_of_mem cs hw hdist segs c hmem
  obtain ⟨p, ps, rfl⟩ : ∃ p ps, segs = p :: ps := by
    cases hf with
    | here cs j n c hj hn => exact ⟨n, [], rfl⟩
    | deeper cs j n gcs segs c hj hn hr => exact ⟨n, segs, rfl⟩
  obtain ⟨lastn, hlastq⟩ : ∃ l, (p :: ps).getLast? = some l := by
    cases hq : (p :: ps).getLast? with
    | none => exact absurd (List.getLast?_eq_none_iff.mp hq) (by simp)
    | some l => exact ⟨l, rfl⟩
  have hlne : lastn ≠ [] := hne lastn (List.mem_of_mem_getLast? hlastq)
  obtain ⟨f, hrun⟩ := run_findsFile hf rdr 1 hgood ([] :: p :: ps) p ps rfl
  refine ⟨f + 1, ?_⟩
  rw [getPath_eq_run rdr [] lastn (p :: ps)
    (by rw [List.getLast?_cons_cons]; exact hlastq)
    (by cases lastn with
        | nil => exact absurd rfl hlne
        | cons a l => rfl) (f + 1)]
  rw [run_step_next (step_dir_descend hroot (by have := findsFile_pos hf; omega)) f]
  exact hrun

/-- Witness for C1 on the concrete tree `exTree` (two nested directories and
two files). -/
theorem build_getPath_roundTrip_witness :
    archiveOkB [110] exTree = true ∧
    (∃ bytes rdr, PfaBuilder.build ⟨[110], .dir [] exTree⟩ = .ok bytes ∧
      PfaReader.new bytes = .ok rdr ∧
      ∀ segs c, (segs, c) ∈ filesList exTree →
        rdr.getPathEvals ([] :: segs) (.file ([] :: segs) c)) :=
  ⟨by decide, build_getPath_roundTrip [110] exTree (by decide)⟩

/-- Counterexample to C1 as stated: the file `"a\x00"` (2 bytes, fitting the
32-byte name field) builds into an archive that parses back, yet `get_path`
on its path answers `notFound` for any amount of fuel — never the contents. -/
theorem build_getPath_nul_counterexample :
    PfaBuilder.build nulBuilder = .ok nulBytes ∧
    PfaReader.new nulBytes = .ok nulReader ∧
    ([[97, 0]], [7]) ∈ filesList [WNode.file [97, 0] [7]] ∧
    nulReader.getPath [[], [97, 0]] 5 = some .notFound ∧
    ¬ nulReader.getPathEvals [[], [97, 0]] (.file [[], [97, 0]] [7]) := by
  refine ⟨by rfl, by rfl, by decide, by decide, ?_⟩
  intro hev
  obtain ⟨fuel, hf⟩ := hev
  have h5 : nulReader.getPath [[], [97, 0]] 5 = some .notFound := by decide
  exact LookupOutcome.noConfusion (getPath_det hf h5)

/-! ## Claim C8 -/

/-- C8, confirmed: in the bytes `build` emits, the `u64` written at the start
of the catalog equals the number of 48-byte catalog entries that follow it
(the synthetic root entry included), so the data region begins exactly
`48 * count` bytes after the count field. -/
theorem catalog_count_field (name : List Nat) (cs : List WNode)
    (hok : archiveOkB name cs = true) :
    ∃ bytes eb,
      PfaBuilder.build ⟨name, .dir [] cs⟩ = .ok bytes ∧
      readU64At bytes (headerLen name) =
        some ((catalogEntriesOf [] cs).length, headerLen name + 8) ∧
      eb.length = 48 * (catalogEntriesOf [] cs).length ∧
      bytes.drop (headerLen name + 8) = eb ++ dataOf cs := by
  obtain ⟨bytes, eb, hbuild, hbytes, heblen, _⟩ := build_parse name cs hok
  have hccap : 1 + catalogLenList cs < 2 ^ 64 := by
    rw [archiveOkB] at hok
    simp only [Bool.and_eq_true, decide_eq_true_eq] at hok
    exact hok.2
  have hassoc : bytes = ([112, 102, 97] ++ [1] ++ (name.length % 256 :: name) ++ [0]) ++
      (u64le (1 + catalogLenList cs) ++ (eb ++ dataOf cs)) := by
    rw [hbytes]
    simp [List.append_assoc]
  have hd : bytes.drop (headerLen name) =
      u64le (1 + catalogLenList cs) ++ (eb ++ dataOf cs) := by
    rw [hassoc]
    refine List.drop_left' ?_
    simp only [List.length_append, List.length_cons, List.length_nil, headerLen]
    omega
  refine ⟨bytes, eb, hbuild, ?_, ?_, ?_⟩
  · rw [readU64At_of_drop bytes _ (headerLen name) _ hd hccap, catalogEntriesOf_length]
  · rw [heblen, catalogEntriesOf_length]
  · have h2 := drop_add_of_drop bytes _ _ (headerLen name) hd
    rw [u64le_length] at h2
    exact h2

/-- Witness for C8 on the concrete tree `exTree`. -/
theorem catalog_count_field_witness :
    archiveOkB [110] exTree = true ∧
    (∃ bytes eb, PfaBuilder.build ⟨[110], .dir [] exTree⟩ = .ok bytes ∧
      readU64At bytes (headerLen [110]) =
        some ((catalogEntriesOf [] exTree).length, headerLen [110] + 8) ∧
      eb.length = 48 * (catalogEntriesOf [] exTree).length ∧
      bytes.drop (headerLen [110] + 8) = eb ++ dataOf exTree) :=
  ⟨by decide, catalog_count_field [110] exTree (by decide)⟩

/-! ## Claim C9 -/

/-- C9, confirmed: with `DataFlags::auto()` (automatic compression, no key,
no error correction) the forward pipeline always succeeds and the stored
payload is never longer than the input: the compressed bytes are kept only
when strictly shorter, otherwise the input is stored as-is. -/
theorem auto_payload_no_larger (P : Prims) (nonce c : List Nat) :
    ∃ payload bits,
      processContentAndGenerateFlags P DataFlags.auto nonce c = some (payload, bits) ∧
      payload.length ≤ c.length := by
  rw [processContentAndGenerateFlags]
  dsimp only [DataFlags.auto]
  by_cases h : (P.comp c).length < c.length
  · rw [if_pos h]
    exact ⟨P.comp c, _, rfl, by omega⟩
  · rw [if_neg h]
    exact ⟨c, _, rfl, by omega⟩

/-! ## Claim C4 -/

/-- C4, code bug: a payload with the error-correction bit set whose bytes
cannot be decoded (here: shorter than the 12-byte header block) makes
`unprocess_contents_from_flags` panic — the slice arithmetic and the
Reed–Solomon `unwrap`s fire before any `Result` is produced — instead of
returning the `ErrorCorrectionError` the claim (and the error type) promise.
The outer `none` of the embedding is exactly that panic. -/
theorem ecc_short_payload_panics :
    unprocessContentsFromFlags toyPrims 252 [1, 2, 3] none = none := by rfl

/-! ## Claim C5 -/

/-- C5, code bug: `get_directory_index_by_name` never matches file children,
so adding `"a/b"` to a builder that already holds a *file* `"a"` does not
return a tree conflict: it silently appends a second child named `"a"` (a
directory) next to the file and returns `Ok`, mutating the tree. -/
theorem addFile_under_file_no_conflict :
    PfaBuilder.addFile ⟨[110], .dir [] [.file [97] [1]]⟩ [97, 47, 98] [2] =
      .ok ⟨[110], .dir [] [.file [97] [1], .dir [97] [.file [98] [2]]]⟩ := by rfl

/-! ## Claim C6 -/

/-- C6, code bug: `write_u8_sized_string` has no length check — a 256-byte
archive name is emitted with the truncated length byte `256 % 256 = 0`
followed by all 256 raw bytes, producing a corrupt archive instead of an
error (the 32-byte catalog name field, by contrast, does error).  The third
conjunct shows the corrupt bytes actually reaching `generate`'s output. -/
theorem u8_sized_string_truncates :
    writeU8SizedString (List.replicate 256 97) = 0 :: List.replicate 256 97 ∧
    writeNulledFixedSizeString (List.replicate 33 97) 32 = .error .stringTooLarge ∧
    (∃ bytes, PfaWriter.generate (List.replicate 256 97) (.dir [] []) = .ok bytes ∧
      bytes.take 5 = [112, 102, 97, 1, 0]) := by
  refine ⟨by rfl, by rfl, ⟨_, rfl, by rfl⟩⟩

/-! ## Claim C3 -/

/-- C3, corrected: with the error-correction bit clear, the two key/flag
mismatch cases produce exactly the claimed errors for every payload — a
supplied key against a clear encryption bit gives *decrypt-unencrypted*, a
set encryption bit without a key gives *key-missing*.  The claim's "these
are the only two key/flag mismatch cases" fails when the error-correction
bit is also set: the ECC stage runs before the key checks and can panic
(e.g. on any payload shorter than 12 bytes), so the mismatch error is never
produced there (see the counterexample). -/
theorem key_flag_mismatch_errors (P : Prims) (bitfield : Nat) (contents : List Nat)
    (hecc : bitfield &&& errorCorrectionBit = 0) :
    (∀ k, bitfield &&& encryptionBit = 0 →
      unprocessContentsFromFlags P bitfield contents (some k) =
        some (.error .decryptUnencryptedFile)) ∧
    (bitfield &&& encryptionBit ≠ 0 →
      unprocessContentsFromFlags P bitfield contents none =
        some (.error .encryptedFileKeyNotProvided)) := by
  constructor
  · intro k henc
    rw [unprocessContentsFromFlags]
    dsimp only
    rw [if_neg (fun h => h hecc)]
    dsimp only
    rw [if_pos henc]
  · intro henc
    rw [unprocessContentsFromFlags]
    dsimp only
    rw [if_neg (fun h => h hecc)]
    dsimp only
    rw [if_pos henc]

/-- Witness for C3: flag byte `248` (reserved bits only) with a key, and
flag byte `250` (encryption bit set) without one. -/
theorem key_flag_mismatch_errors_witness :
    (248 &&& errorCorrectionBit = 0) ∧
    unprocessContentsFromFlags toyPrims 248 [5] (some (List.replicate 32 1)) =
      some (.error .decryptUnencryptedFile) ∧
    (250 &&& errorCorrectionBit = 0) ∧
    unprocessContentsFromFlags toyPrims 250 [5] none =
      some (.error .encryptedFileKeyNotProvided) :=
  ⟨by decide,
   (key_flag_mismatch_errors toyPrims 248 [5] (by decide)).1
     (List.replicate 32 1) (by decide),
   by decide,
   (key_flag_mismatch_errors toyPrims 250 [5] (by decide)).2 (by decide)⟩

/-- Counterexample to C3 as stated: flag byte `252` has the encryption bit
clear and a key is supplied, so the claim demands the *decrypt-unencrypted*
error; but the error-correction bit is set and the ECC stage panics on the
3-byte payload first — no mismatch error is ever returned. -/
theorem key_flag_mismatch_ecc_counterexample :
    252 &&& encryptionBit = 0 ∧
    unprocessContentsFromFlags toyPrims 252 [1, 2, 3] (some (List.replicate 32 1)) =
      none := by
  exact ⟨by decide, by rfl⟩

/-! ## Claim C10: termination analysis of the lookup loop -/

theorem run_stall {rdr : PfaReader} {qs : List (List Nat)} {isD : Bool}
    {s : LookupState} (h : getPathStep rdr qs isD s = .next s) :
    ∀ fuel, getPathRun rdr qs isD fuel s = none
  | 0 => by rw [getPathRun]
  | fuel + 1 => by
      rw [run_step_next h]
      exact run_stall h fuel

theorem step_classify (rdr : PfaReader) (qs : List (List Nat)) (isD : Bool)
    (base m : Nat) (part : List Nat) (parts : List (List Nat)) :
    (∃ o, getPathStep rdr qs isD ⟨base, some m, part, parts⟩ = .done o) ∨
    (∃ b2 m2 p2 ps2, getPathStep rdr qs isD ⟨base, some m, part, parts⟩ =
        .next ⟨b2, some m2, p2, ps2⟩ ∧ 1 ≤ m2 ∧
        (ps2.length + 1 = parts.length ∨
          (ps2 = parts ∧ p2 = part ∧ m2 = m - 1 ∧ 2 ≤ m))) := by
  rw [getPathStep]
  dsimp only
  by_cases hend : base = rdr.entries.length
  · rw [if_pos hend]
    exact .inl ⟨_, rfl⟩
  rw [if_neg hend]
  cases hentry : rdr.entries[base]? with
  | none => exact .inl ⟨_, rfl⟩
  | some entry =>
      rcases entry with ⟨epath, eslice⟩
      dsimp only
      by_cases hmatch : epath = part
      · rw [if_pos hmatch]
        cases parts with
        | nil =>
            cases isD with
            | true =>
                simp only [List.isEmpty_nil, Bool.not_true, Bool.and_false]
                cases eslice with
                | data o sz =>
                    dsimp only
                    simp only [Option.map_some']
                    by_cases hm : m - 1 = 0
                    · exact .inl ⟨_, by rw [if_pos (by rw [hm])]⟩
                    · refine .inr ⟨base, m - 1, part, [], ?_, by omega,
                        .inr ⟨rfl, rfl, rfl, by omega⟩⟩
                      rw [if_neg (by intro hc; injection hc with hc2; exact hm hc2)]
                | catalog o sz =>
                    dsimp only
                    by_cases hb : base + o + sz ≤ rdr.entries.length
                    · rw [if_pos hb]
                      cases listingOf qs ((rdr.entries.drop (base + o)).take sz) with
                      | none => exact .inl ⟨_, rfl⟩
                      | some children => exact .inl ⟨_, rfl⟩
                    · rw [if_neg hb]
                      exact .inl ⟨_, rfl⟩
            | false =>
                simp only [List.isEmpty_nil, Bool.not_false, Bool.and_self]
                cases eslice with
                | data o sz =>
                    dsimp only
                    by_cases hb : rdr.dataIdx + o + sz ≤ rdr.bytes.length
                    · rw [if_pos hb]
                      exact .inl ⟨_, rfl⟩
                    · rw [if_neg hb]
                      exact .inl ⟨_, rfl⟩
                | catalog o sz =>
                    dsimp only
                    simp only [Option.map_some']
                    by_cases hm : m - 1 = 0
                    · exact .inl ⟨_, by rw [if_pos (by rw [hm])]⟩
                    · refine .inr ⟨base, m - 1, part, [], ?_, by omega,
                        .inr ⟨rfl, rfl, rfl, by omega⟩⟩
                      rw [if_neg (by intro hc; injection hc with hc2; exact hm hc2)]
        | cons p ps =>
            simp only [List.isEmpty_cons, Bool.false_and]
            cases eslice with
            | data o sz =>
                dsimp only
                simp only [Option.map_some']
                by_cases hm : m - 1 = 0
                · exact .inl ⟨_, by rw [if_pos (by rw [hm])]⟩
                · refine .inr ⟨base, m - 1, part, p :: ps, ?_, by omega,
                    .inr ⟨rfl, rfl, rfl, by omega⟩⟩
                  rw [if_neg (by intro hc; injection hc with hc2; exact hm hc2)]
            | catalog o sz =>
                dsimp only
                rw [if_neg (by decide : ¬ (false = true))]
                by_cases hsz : sz = 0
                · rw [if_pos hsz]
                  exact .inl ⟨_, rfl⟩
                · rw [if_neg hsz]
                  exact .inr ⟨base + o, sz, p, ps, rfl, by omega, .inl (by simp)⟩
      · rw [if_neg hmatch]
        simp only [Option.map_some']
        by_cases hm : m - 1 = 0
        · exact .inl ⟨_, by rw [if_pos (by rw [hm])]⟩
        · refine .inr ⟨base + 1, m - 1, part, parts, ?_, by omega,
            .inr ⟨rfl, rfl, rfl, by omega⟩⟩
          rw [if_neg (by intro hc; injection hc with hc2; exact hm hc2)]

theorem getPathRun_terminates : ∀ (parts : List (List Nat)) (m : Nat),
    ∀ (rdr : PfaReader) (qs : List (List Nat)) (isD : Bool) (part : List Nat)
    (base : Nat), 1 ≤ m →
    ∃ fuel o, getPathRun rdr qs isD fuel ⟨base, some m, part, parts⟩ = some o
  | parts, m => fun rdr qs isD part base _hm => by
      rcases step_classify rdr qs isD base m part parts with ⟨o, ho⟩ |
        ⟨b2, m2, p2, ps2, hstep, hm2, hdec⟩
      · exact ⟨1, o, run_step_done ho 0⟩
      · rcases hdec with hlen | ⟨hps, hp, hm1, hm2b⟩
        · obtain ⟨f, o, hf⟩ := getPathRun_terminates ps2 m2 rdr qs isD p2 b2 hm2
          exact ⟨f + 1, o, by rw [run_step_next hstep]; exact hf⟩
        · obtain ⟨f, o, hf⟩ := getPathRun_terminates ps2 m2 rdr qs isD p2 b2 hm2
          exact ⟨f + 1, o, by rw [run_step_next hstep]; exact hf⟩
termination_by parts m => (parts.length, m)
decreasing_by
  · exact Prod.Lex.left _ _ (by omega)
  · rw [hps, hm1]
    exact Prod.Lex.right _ (by omega)

theorem rooted_listing_done (rdr : PfaReader) (o n : Nat)
    (hroot : rdr.entries[0]? = some ⟨[], .catalog o n⟩) (qs : List (List Nat)) :
    ∃ out, getPathStep rdr qs true ⟨0, none, [], []⟩ = .done out := by
  rw [getPathStep]
  dsimp only
  rw [if_neg (by have := lt_of_getElem?_some hroot; omega)]
  rw [hroot]
  dsimp only
  rw [if_pos rfl]
  simp only [List.isEmpty_nil, Bool.not_true, Bool.and_false]
  by_cases hb : 0 + o + n ≤ rdr.entries.length
  · rw [if_pos hb]
    cases listingOf qs ((rdr.entries.drop (0 + o)).take n) with
    | none => exact ⟨_, rfl⟩
    | some children => exact ⟨_, rfl⟩
  · rw [if_neg hb]
    exact ⟨_, rfl⟩

theorem rooted_run_terminates (rdr : PfaReader) (o n : Nat)
    (hroot : rdr.entries[0]? = some ⟨[], .catalog o n⟩) (qs : List (List Nat))
    (isD : Bool) (p : List Nat) (ps : List (List Nat)) :
    ∃ fuel out, getPathRun rdr qs isD fuel ⟨0, none, [], p :: ps⟩ = some out := by
  by_cases hn : n = 0
  · refine ⟨1, .notFound, ?_⟩
    refine run_step_done ?_ 0
    rw [getPathStep]
    dsimp only
    rw [if_neg (by have := lt_of_getElem?_some hroot; omega)]
    rw [hroot]
    dsimp only
    rw [if_pos rfl]
    simp only [List.isEmpty_cons, Bool.false_and]
    rw [if_neg (by decide : ¬ (false = true)), if_pos hn]
  · have hstep0 : getPathStep rdr qs isD ⟨0, none, [], p :: ps⟩ =
        .next ⟨0 + o, some n, p, ps⟩ := by
      rw [getPathStep]
      dsimp only
      rw [if_neg (by have := lt_of_getElem?_some hroot; omega)]
      rw [hroot]
      dsimp only
      rw [if_pos rfl]
      simp only [List.isEmpty_cons, Bool.false_and]
      rw [if_neg (by decide : ¬ (false = true)), if_neg hn]
    obtain ⟨f, out, hf⟩ := getPathRun_terminates ps n rdr qs isD p (0 + o) (by omega)
    exact ⟨f + 1, out, by rw [run_step_next hstep0 f]; exact hf⟩

/-- C10, corrected: on an archive built by the writer, `get_path` terminates
with a result for every query whose first segment is empty — i.e. every
rendered path starting with `/`, which is what `PfaPath::from` produces for
catalog listings.  The unrestricted claim is false: a query whose first
segment names an existing entry of the other kind (e.g. the directory `"d"`
queried as the file path `"d"` without a leading slash) reaches the
slice-kind-mismatch arm with `remaining_size = None` and repeats the same
state forever (see the counterexample). -/
theorem getPath_terminates_rooted (name : List Nat) (cs : List WNode)
    (hok : archiveOkB name cs = true) :
    ∃ bytes rdr, PfaBuilder.build ⟨name, .dir [] cs⟩ = .ok bytes ∧
      PfaReader.new bytes = .ok rdr ∧
      ∀ qs : List (List Nat), qs.head? = some [] → rdr.getPathTerminates qs := by
  obtain ⟨bytes, rdr, hbuild, hnew, hroot, _⟩ := build_reader_goodRun name cs hok
  refine ⟨bytes, rdr, hbuild, hnew, ?_⟩
  intro qs hq
  obtain ⟨rest, rfl⟩ : ∃ rest, qs = [] :: rest := by
    cases qs with
    | nil => simp at hq
    | cons q qrest =>
        simp only [List.head?_cons, Option.some.injEq] at hq
        exact ⟨qrest, by rw [hq]⟩
  cases rest with
  | nil => exact ⟨1, .notFound, rfl⟩
  | cons r rs =>
      obtain ⟨lastn, hlast⟩ : ∃ l, (r :: rs).getLast? = some l := by
        cases hq2 : (r :: rs).getLast? with
        | none => exact absurd (List.getLast?_eq_none_iff.mp hq2) (by simp)
        | some l => exact ⟨l, rfl⟩
      have hqlast : ([] :: r :: rs).getLast? = some lastn := by
        rw [List.getLast?_cons_cons]
        exact hlast
      by_cases hemp : lastn.isEmpty = true
      · cases rs with
        | nil =>
            obtain ⟨out, hstep⟩ := rooted_listing_done rdr 1 cs.length hroot [[], r]
            refine ⟨1, out, ?_⟩
            rw [PfaReader.getPath, hqlast]
            dsimp only
            rw [hemp, if_pos rfl]
            exact run_step_done hstep 0
        | cons r2 rs2 =>
            obtain ⟨f, out, hrun⟩ := rooted_run_terminates rdr 1 cs.length hroot
              ([] :: r :: r2 :: rs2) true r ((r2 :: rs2).dropLast)
            refine ⟨f, out, ?_⟩
            rw [PfaReader.getPath, hqlast]
            dsimp only
            rw [hemp, if_pos rfl]
            exact hrun
      · obtain ⟨f, out, hrun⟩ := rooted_run_terminates rdr 1 cs.length hroot
          ([] :: r :: rs) false r rs
        refine ⟨f, out, ?_⟩
        rw [getPath_eq_run rdr [] lastn (r :: rs) hqlast
          (by cases h2 : lastn.isEmpty with
              | false => rfl
              | true => exact absurd h2 hemp) f]
        exact hrun

/-- Witness for C10 on the concrete tree `exTree`. -/
theorem getPath_terminates_rooted_witness :
    archiveOkB [110] exTree = true ∧
    (∃ bytes rdr, PfaBuilder.build ⟨[110], .dir [] exTree⟩ = .ok bytes ∧
      PfaReader.new bytes = .ok rdr ∧
      ∀ qs : List (List Nat), qs.head? = some [] → rdr.getPathTerminates qs) :=
  ⟨by decide, getPath_terminates_rooted [110] exTree (by decide)⟩

/-- Counterexample to C10 as stated: on the built archive `exBytes`, the
query `["d"]` — the archive's directory `"d"` without a leading slash,
looked up as a file path — makes `get_path` loop forever: after one
advancing step the state `⟨1, none, "d", []⟩` steps to itself, so no amount
of fuel produces a result. -/
theorem getPath_stall_counterexample :
    PfaBuilder.build exBuilder = .ok exBytes ∧
    PfaReader.new exBytes = .ok exReader ∧
    ¬ exReader.getPathTerminates [[100]] := by
  refine ⟨rfl, rfl, ?_⟩
  intro hterm
  obtain ⟨fuel, o, hf⟩ := hterm
  have hrun : ∀ f, getPathRun exReader [[100]] false f ⟨0, none, [100], []⟩ = none := by
    intro f
    cases f with
    | zero => rfl
    | succ f2 =>
        rw [run_step_next (show getPathStep exReader [[100]] false ⟨0, none, [100], []⟩ =
          .next ⟨1, none, [100], []⟩ by decide) f2]
        exact run_stall (by decide) f2
  have heq : exReader.getPath [[100]] fuel =
      getPathRun exReader [[100]] false fuel ⟨0, none, [100], []⟩ := rfl
  rw [heq, hrun fuel] at hf
  exact Option.noConfusion hf

/-! ## Claim C7 -/

theorem scanNewFiles_eq (oldFiles : List (List Nat × List Nat)) :
    ∀ files, scanNewFiles oldFiles files =
      (files.filter (fun f => (lookupFile oldFiles f.1).isNone)).map
        (fun f => (escapeSlash f.1, f.2))
  | [] => rfl
  | (p, c) :: rest => by
      rw [scanNewFiles]
      cases hl : lookupFile oldFiles p with
      | none =>
          rw [List.filter_cons_of_pos (by simp [hl])]
          rw [List.map_cons, scanNewFiles_eq oldFiles rest]
      | some v =>
          rw [List.filter_cons_of_neg (by simp [hl])]
          exact scanNewFiles_eq oldFiles rest

theorem scanOldFiles_eq (patchText : List Nat → List Nat → List Nat)
    (nf : List (List Nat × List Nat)) :
    ∀ files : List (List Nat × List Nat),
    (∀ p c nc, (p, c) ∈ files → lookupFile nf p = some nc → c ≠ nc →
      utf8Valid c = true ∧ utf8Valid nc = true) →
    scanOldFiles patchText nf files = .ok
      ((files.filter (fun f => (lookupFile nf f.1).isNone)).map
          (fun f => escapeSlash f.1),
       (files.filter
           (fun f => (lookupFile nf f.1).any (fun nc => decide (f.2 ≠ nc)))).map
          (fun f => (escapeSlash f.1, patchText f.2 ((lookupFile nf f.1).getD []))))
  | [] => fun _ => rfl
  | (p, c) :: rest => fun hutf => by
      rw [scanOldFiles]
      have ih := scanOldFiles_eq patchText nf rest
        (fun p2 c2 nc hm hl hne => hutf p2 c2 nc (by simp [hm]) hl hne)
      cases hl : lookupFile nf p with
      | some nc =>
          dsimp only
          by_cases hne : c ≠ nc
          · rw [if_pos hne]
            obtain ⟨h1, h2⟩ := hutf p c nc (by simp) hl hne
            rw [h1, h2, if_pos (by decide : (true && true) = true), ih]
            dsimp only
            rw [List.filter_cons_of_neg (by simp [hl]),
              List.filter_cons_of_pos (by simp [hl, hne]), List.map_cons]
            dsimp only
            rw [hl]
            rfl
          · rw [if_neg hne, ih,
              List.filter_cons_of_neg (by simp [hl]),
              List.filter_cons_of_neg
                (by simp only [Option.any, hl, decide_eq_true_eq]; simpa using hne)]
      | none =>
          dsimp only
          rw [ih]
          dsimp only
          rw [List.filter_cons_of_pos (by simp [hl]),
            List.filter_cons_of_neg (by simp [hl]), List.map_cons]

/-- C7, corrected, over the spec-modelled archive abstraction (the new
revision's reader/writer are missing from the sources): `create_diff`
produces the `"<old_name>_patch"` archive whose files are exactly the
claimed `/remove/`, `/add/` and `/change/` entries with `/` escaped to `%` —
*provided* every changed file has valid UTF-8 contents on both sides.  The
original claim omits that proviso: `create_diff` pushes both byte vectors of
a changed file through `String::from_utf8` and fails on non-UTF-8 contents
(see the counterexample). -/
theorem createDiff_files (patchText : List Nat → List Nat → List Nat)
    (old new : SpecArchive)
    (hutf : ∀ p c nc, (p, c) ∈ old.files → lookupFile new.files p = some nc →
      c ≠ nc → utf8Valid c = true ∧ utf8Valid nc = true) :
    createDiff patchText old new = .ok
      ⟨old.name ++ patchSuffixBytes,
       (old.files.filter (fun f => (lookupFile new.files f.1).isNone)).map
           (fun f => (removeDirBytes ++ escapeSlash f.1, [])) ++
       (new.files.filter (fun f => (lookupFile old.files f.1).isNone)).map
           (fun f => (addDirBytes ++ escapeSlash f.1, f.2)) ++
       (old.files.filter
           (fun f => (lookupFile new.files f.1).any (fun nc => decide (f.2 ≠ nc)))).map
           (fun f => (changeDirBytes ++ escapeSlash f.1,
             patchText f.2 ((lookupFile new.files f.1).getD [])))⟩ := by
  rw [createDiff, scanOldFiles_eq patchText new.files old.files hutf]
  dsimp only
  rw [scanNewFiles_eq old.files new.files]
  simp only [List.map_map]
  rfl

/-- Witness for C7: `old` holds `/a ↦ "hi"` and `/b ↦ [1]`, `new` holds
`/a ↦ "ho"` and `/c ↦ [5]`; the diff removes `/b`, adds `/c` and changes
`/a` (patch text modelled as concatenation). -/
theorem createDiff_files_witness :
    (∀ p c nc, (p, c) ∈ ([([47, 97], [104, 105]), ([47, 98], [1])] :
        List (List Nat × List Nat)) →
      lookupFile [([47, 97], [104, 111]), ([47, 99], [5])] p = some nc →
      c ≠ nc → utf8Valid c = true ∧ utf8Valid nc = true) ∧
    createDiff (fun a b => a ++ b)
      ⟨[111], [([47, 97], [104, 105]), ([47, 98], [1])]⟩
      ⟨[110], [([47, 97], [104, 111]), ([47, 99], [5])]⟩ = .ok
      ⟨[111, 95, 112, 97, 116, 99, 104],
       [([47, 114, 101, 109, 111, 118, 101, 47, 37, 98], []),
        ([47, 97, 100, 100, 47, 37, 99], [5]),
        ([47, 99, 104, 97, 110, 103, 101, 47, 37, 97], [104, 105, 104, 111])]⟩ :=
  have hutf : ∀ p c nc, (p, c) ∈ ([([47, 97], [104, 105]), ([47, 98], [1])] :
      List (List Nat × List Nat)) →
      lookupFile [([47, 97], [104, 111]), ([47, 99], [5])] p = some nc →
      c ≠ nc → utf8Valid c = true ∧ utf8Valid nc = true := by
    intro p c nc hm hl hne
    simp only [List.mem_cons, List.not_mem_nil, or_false, Prod.mk.injEq] at hm
    rcases hm with ⟨rfl, rfl⟩ | ⟨rfl, rfl⟩
    · have h2 : some ([104, 111] : List Nat) = some nc := hl
      injection h2 with h3
      subst h3
      exact ⟨by decide, by decide⟩
    · have h2 : (none : Option (List Nat)) = some nc := hl
      exact Option.noConfusion h2
  ⟨hutf, (createDiff_files (fun a b => a ++ b)
      ⟨[111], [([47, 97], [104, 105]), ([47, 98], [1])]⟩
      ⟨[110], [([47, 97], [104, 111]), ([47, 99], [5])]⟩ hutf).trans (by rfl)⟩

/-- Counterexample to C7 as stated: the file `/a` changes from the
non-UTF-8 byte `[255]` to `[0]`, and `create_diff` fails with the UTF-8
error instead of producing the patch archive the claim promises for *every*
pair of archives. -/
theorem createDiff_utf8_counterexample :
    createDiff (fun a b => a ++ b) ⟨[111], [([47, 97], [255])]⟩
      ⟨[110], [([47, 97], [0])]⟩ = .error .utf8 := by rfl

/-! ## Claim C2: the error-correction stage inverts itself -/

theorem chunksOfFuel_congr : ∀ (fuel n : Nat) (l : List Nat), l.length ≤ fuel →
    chunksOfFuel fuel n l = chunksOfFuel l.length n l
  | fuel, n, [] => by
      intro h
      cases fuel with
      | zero => rfl
      | succ f => cases n with
        | zero => rfl
        | succ m => rfl
  | fuel, 0, x :: xs => by
      intro h
      cases fuel with
      | zero => simp at h
      | succ f => rfl
  | 0, n + 1, x :: xs => by intro h; simp at h
  | fuel + 1, n + 1, x :: xs => by
      intro h
      simp only [List.length_cons] at h
      rw [chunksOfFuel]
      rw [show (x :: xs).length = xs.length + 1 from rfl, chunksOfFuel]
      congr 1
      rw [chunksOfFuel_congr fuel (n + 1) ((x :: xs).drop (n + 1))
          (by simp only [List.length_drop, List.length_cons]; omega),
        chunksOfFuel_congr xs.length (n + 1) ((x :: xs).drop (n + 1))
          (by simp only [List.length_drop, List.length_cons]; omega)]
termination_by fuel n l => fuel
decreasing_by
  all_goals first
    | omega
    | (simp only [List.length_cons] at *; omega)

theorem chunksOf_cons (n x : Nat) (xs : List Nat) (hn : 1 ≤ n) :
    chunksOf n (x :: xs) = (x :: xs).take n :: chunksOf n ((x :: xs).drop n) := by
  obtain ⟨m, rfl⟩ : ∃ m, n = m + 1 := ⟨n - 1, by omega⟩
  rw [chunksOf, show (x :: xs).length = xs.length + 1 from rfl, chunksOfFuel, chunksOf]
  congr 1
  exact chunksOfFuel_congr xs.length (m + 1) ((x :: xs).drop (m + 1)) (by simp)

theorem chunksOf_flatten : ∀ (l : List Nat) (n : Nat), 1 ≤ n →
    (chunksOf n l).flatten = l
  | [], n => by
      intro hn
      rw [chunksOf]
      cases n with
      | zero => rfl
      | succ m => rfl
  | x :: xs, n => by
      intro hn
      rw [chunksOf_cons n x xs hn, List.flatten_cons,
        chunksOf_flatten ((x :: xs).drop n) n hn, List.take_append_drop]
termination_by l n => l.length
decreasing_by simp; omega

theorem eccChunkSizes_zero : eccChunkSizes 0 = [] := rfl

theorem eccChunkSizes_small (a : Nat) (h1 : 1 ≤ a) (h2 : a < 255) :
    eccChunkSizes a = [a] := by
  rw [eccChunkSizes]
  have hd : a / 255 = 0 := by omega
  have hm : a % 255 = a := by omega
  rw [hd, hm, if_pos (by omega)]
  rfl

theorem eccChunkSizes_add255 (r : Nat) :
    eccChunkSizes (255 + r) = 255 :: eccChunkSizes r := by
  rw [eccChunkSizes, eccChunkSizes]
  have hd : (255 + r) / 255 = r / 255 + 1 := by omega
  have hm : (255 + r) % 255 = r % 255 := by omega
  rw [hd, hm]
  rw [List.replicate_succ]
  rfl

theorem readU64LEOpt_u64le (n : Nat) (h : n < 2 ^ 64) :
    readU64LEOpt (u64le n) = some n := by
  rw [readU64LEOpt, if_pos (by rw [u64le_length])]
  have := readU64LE_u64le n [] h
  rw [List.append_nil] at this
  rw [this]

theorem eccDecode_encode (P : Prims) (hrt : P.rsRoundTrip) (hlen : P.rsLen)
    (ecc bs : Nat) (hbs : bs + ecc = 255) (h1 : 1 ≤ bs) :
    ∀ l : List Nat,
    eccDecodeChunks P ecc
        (eccChunkSizes (((chunksOf bs l).map (P.rsEncode ecc)).flatten.length))
        ((chunksOf bs l).map (P.rsEncode ecc)).flatten = some l
  | [] => by
      obtain ⟨m, rfl⟩ : ∃ m, bs = m + 1 := ⟨bs - 1, by omega⟩
      rw [show chunksOf (m + 1) [] = [] from rfl]
      simp only [List.map_nil, List.flatten_nil, List.length_nil]
      rw [eccChunkSizes_zero, eccDecodeChunks]
  | x :: xs => by
      rw [chunksOf_cons bs x xs h1, List.map_cons, List.flatten_cons]
      by_cases hfull : bs ≤ xs.length + 1
      · have hlen255 : (P.rsEncode ecc ((x :: xs).take bs)).length = 255 := by
          rw [hlen]
          simp only [List.length_take, List.length_cons]
          omega
        rw [List.length_append, hlen255, eccChunkSizes_add255]
        rw [eccDecodeChunks]
        rw [if_neg (by rw [List.length_append, hlen255]; omega)]
        rw [List.take_left' hlen255]
        rw [hrt ecc ((x :: xs).take bs)]
        dsimp only
        rw [List.drop_left' hlen255]
        rw [eccDecode_encode P hrt hlen ecc bs hbs h1 ((x :: xs).drop bs)]
        dsimp only
        rw [List.take_append_drop]
      · obtain ⟨m, rfl⟩ : ∃ m, bs = m + 1 := ⟨bs - 1, by omega⟩
        have hdrop : (x :: xs).drop (m + 1) = [] :=
          List.drop_eq_nil_of_le (by simp only [List.length_cons]; omega)
        have htake : (x :: xs).take (m + 1) = x :: xs :=
          List.take_of_length_le (by simp only [List.length_cons]; omega)
        rw [hdrop, htake]
        rw [show chunksOf (m + 1) [] = [] from rfl]
        simp only [List.map_nil, List.flatten_nil, List.append_nil]
        have hlenx : (P.rsEncode ecc (x :: xs)).length = xs.length + 1 + ecc := by
          rw [hlen, List.length_cons]
        rw [hlenx, eccChunkSizes_small _ (by omega) (by omega)]
        rw [eccDecodeChunks]
        rw [if_neg (by rw [hlenx]; omega)]
        rw [List.take_of_length_le (by rw [hlenx])]
        rw [hrt ecc (x :: xs)]
        dsimp only
        rw [List.drop_eq_nil_of_le (by rw [hlenx])]
        rw [show eccDecodeChunks P ecc [] [] = some [] from rfl]
        dsimp only
        rw [List.append_nil]
termination_by l => l.length
decreasing_by
  simp only [List.length_drop, List.length_cons]
  omega

theorem eccStage_roundTrip (P : Prims) (hrt : P.rsRoundTrip) (hlen : P.rsLen)
    (ecc : Nat) (hecc : ecc ≤ 254) (l : List Nat) :
    eccStage P (P.rsEncode 4 (u64le ecc) ++
      ((chunksOf (255 - ecc) l).map (P.rsEncode ecc)).flatten) = some l := by
  have hh : (P.rsEncode 4 (u64le ecc)).length = 12 := by
    rw [hlen, u64le_length]
  rw [eccStage]
  rw [if_neg (by rw [List.length_append, hh]; omega)]
  dsimp only
  rw [List.take_left' hh]
  rw [hrt 4 (u64le ecc)]
  dsimp only
  rw [readU64LEOpt_u64le ecc (by omega)]
  dsimp only
  rw [List.drop_left' hh]
  rw [show (P.rsEncode 4 (u64le ecc) ++
      ((chunksOf (255 - ecc) l).map (P.rsEncode ecc)).flatten).length - 12 =
      ((chunksOf (255 - ecc) l).map (P.rsEncode ecc)).flatten.length from by
    rw [List.length_append, hh]; omega]
  exact eccDecode_encode P hrt hlen ecc (255 - ecc) (by omega) (by omega) l

/-! ## Claim C2: the whole inverse pipeline -/

theorem unprocess_plain (P : Prims) (hcomp : P.compRoundTrip) (orig c1 : List Nat)
    (b1 : Nat) (hinv : (b1 = 0 ∧ c1 = orig) ∨ (b1 = 1 ∧ c1 = P.comp orig)) :
    unprocessContentsFromFlags P (b1 ||| reservedBits) c1 none = some (.ok orig) := by
  rcases hinv with ⟨rfl, rfl⟩ | ⟨rfl, rfl⟩
  · rw [unprocessContentsFromFlags]
    dsimp only
    rw [if_neg (by decide)]
    dsimp only
    rw [if_neg (by decide)]
    dsimp only
    rw [if_neg (by decide)]
  · rw [unprocessContentsFromFlags]
    dsimp only
    rw [if_neg (by decide)]
    dsimp only
    rw [if_neg (by decide)]
    dsimp only
    rw [if_pos (by decide)]
    rw [hcomp orig]

theorem unprocess_encrypted (P : Prims) (hcomp : P.compRoundTrip)
    (hdec : P.decRoundTrip) (k nonce orig c1 : List Nat) (b1 : Nat)
    (hk : k.length = 32) (hn : nonce.length < 2 ^ 64)
    (hinv : (b1 = 0 ∧ c1 = orig) ∨ (b1 = 1 ∧ c1 = P.comp orig)) :
    unprocessContentsFromFlags P ((b1 ||| encryptionBit) ||| reservedBits)
      (u64le nonce.length ++ nonce ++ P.encrypt k nonce c1) (some k) =
      some (.ok orig) := by
  have hread : readU64LE (u64le nonce.length ++ nonce ++ P.encrypt k nonce c1) =
      nonce.length := by
    rw [List.append_assoc]
    exact readU64LE_u64le _ _ hn
  have hdrop8 : (u64le nonce.length ++ nonce ++ P.encrypt k nonce c1).drop 8 =
      nonce ++ P.encrypt k nonce c1 := by
    rw [List.append_assoc]
    exact List.drop_left' (u64le_length nonce.length)
  have hdropN : (u64le nonce.length ++ nonce ++ P.encrypt k nonce c1).drop
      (8 + nonce.length) = P.encrypt k nonce c1 :=
    List.drop_left' (by rw [List.length_append, u64le_length])
  have hlen : ¬ (u64le nonce.length ++ nonce ++ P.encrypt k nonce c1).length < 8 := by
    simp only [List.length_append, u64le_length]
    omega
  have hlenN : ¬ (u64le nonce.length ++ nonce ++ P.encrypt k nonce c1).length <
      8 + nonce.length := by
    simp only [List.length_append, u64le_length]
    omega
  rcases hinv with ⟨rfl, rfl⟩ | ⟨rfl, rfl⟩
  · rw [unprocessContentsFromFlags]
    dsimp only
    rw [if_neg (by decide)]
    dsimp only
    rw [if_neg (by decide), if_neg hlen, hread, if_neg hlenN, hdrop8, hdropN,
      List.take_left, hdec k nonce c1 hk]
    dsimp only
    rw [if_neg (by decide)]
  · rw [unprocessContentsFromFlags]
    dsimp only
    rw [if_neg (by decide)]
    dsimp only
    rw [if_neg (by decide), if_neg hlen, hread, if_neg hlenN, hdrop8, hdropN,
      List.take_left, hdec k nonce (P.comp orig) hk]
    dsimp only
    rw [if_pos (by decide)]
    rw [hcomp orig]

theorem unprocess_encrypted_wrongKey (P : Prims) (hwk : P.wrongKeyFails)
    (k k2 nonce c1 : List Nat) (b1 : Nat) (hb1 : b1 = 0 ∨ b1 = 1)
    (hk : k.length = 32) (hk2 : k2.length = 32) (hne : k2 ≠ k)
    (hn : nonce.length < 2 ^ 64) :
    unprocessContentsFromFlags P ((b1 ||| encryptionBit) ||| reservedBits)
      (u64le nonce.length ++ nonce ++ P.encrypt k nonce c1) (some k2) =
      some (.error .fileDecrypt) := by
  have hread : readU64LE (u64le nonce.length ++ nonce ++ P.encrypt k nonce c1) =
      nonce.length := by
    rw [List.append_assoc]
    exact readU64LE_u64le _ _ hn
  have hdrop8 : (u64le nonce.length ++ nonce ++ P.encrypt k nonce c1).drop 8 =
      nonce ++ P.encrypt k nonce c1 := by
    rw [List.append_assoc]
    exact List.drop_left' (u64le_length nonce.length)
  have hdropN : (u64le nonce.length ++ nonce ++ P.encrypt k nonce c1).drop
      (8 + nonce.length) = P.encrypt k nonce c1 :=
    List.drop_left' (by rw [List.length_append, u64le_length])
  have hlen : ¬ (u64le nonce.length ++ nonce ++ P.encrypt k nonce c1).length < 8 := by
    simp only [List.length_append, u64le_length]
    omega
  have hlenN : ¬ (u64le nonce.length ++ nonce ++ P.encrypt k nonce c1).length <
      8 + nonce.length := by
    simp only [List.length_append, u64le_length]
    omega
  rcases hb1 with rfl | rfl
  · rw [unprocessContentsFromFlags]
    dsimp only
    rw [if_neg (by decide)]
    dsimp only
    rw [if_neg (by decide), if_neg hlen, hread, if_neg hlenN, hdrop8, hdropN,
      List.take_left, hwk k k2 nonce c1 hk hk2 hne]
  · rw [unprocessContentsFromFlags]
    dsimp only
    rw [if_neg (by decide)]
    dsimp only
    rw [if_neg (by decide), if_neg hlen, hread, if_neg hlenN, hdrop8, hdropN,
      List.take_left, hwk k k2 nonce c1 hk hk2 hne]

theorem unprocess_ecc_plain (P : Prims) (hcomp : P.compRoundTrip)
    (hrs : P.rsRoundTrip) (hrsl : P.rsLen) (e : Nat) (he : e ≤ 254)
    (orig c1 : List Nat) (b1 : Nat)
    (hinv : (b1 = 0 ∧ c1 = orig) ∨ (b1 = 1 ∧ c1 = P.comp orig)) :
    unprocessContentsFromFlags P ((b1 ||| errorCorrectionBit) ||| reservedBits)
      (P.rsEncode 4 (u64le e) ++ ((chunksOf (255 - e) c1).map (P.rsEncode e)).flatten)
      none = some (.ok orig) := by
  rcases hinv with ⟨rfl, rfl⟩ | ⟨rfl, rfl⟩
  · rw [unprocessContentsFromFlags]
    dsimp only
    rw [if_pos (by decide), eccStage_roundTrip P hrs hrsl e he c1]
    dsimp only
    rw [if_neg (by decide)]
    dsimp only
    rw [if_neg (by decide)]
  · rw [unprocessContentsFromFlags]
    dsimp only
    rw [if_pos (by decide), eccStage_roundTrip P hrs hrsl e he (P.comp orig)]
    dsimp only
    rw [if_neg (by decide)]
    dsimp only
    rw [if_pos (by decide), hcomp orig]

theorem unprocess_ecc_encrypted (P : Prims) (hcomp : P.compRoundTrip)
    (hdec : P.decRoundTrip) (hrs : P.rsRoundTrip) (hrsl : P.rsLen)
    (e : Nat) (he : e ≤ 254) (k nonce orig c1 : List Nat) (b1 : Nat)
    (hk : k.length = 32) (hn : nonce.length < 2 ^ 64)
    (hinv : (b1 = 0 ∧ c1 = orig) ∨ (b1 = 1 ∧ c1 = P.comp orig)) :
    unprocessContentsFromFlags P (((b1 ||| encryptionBit) ||| errorCorrectionBit) |||
        reservedBits)
      (P.rsEncode 4 (u64le e) ++
        ((chunksOf (255 - e)
          (u64le nonce.length ++ nonce ++ P.encrypt k nonce c1)).map
            (P.rsEncode e)).flatten)
      (some k) = some (.ok orig) := by
  have hread : readU64LE (u64le nonce.length ++ nonce ++ P.encrypt k nonce c1) =
      nonce.length := by
    rw [List.append_assoc]
    exact readU64LE_u64le _ _ hn
  have hdrop8 : (u64le nonce.length ++ nonce ++ P.encrypt k nonce c1).drop 8 =
      nonce ++ P.encrypt k nonce c1 := by
    rw [List.append_assoc]
    exact List.drop_left' (u64le_length nonce.length)
  have hdropN : (u64le nonce.length ++ nonce ++ P.encrypt k nonce c1).drop
      (8 + nonce.length) = P.encrypt k nonce c1 :=
    List.drop_left' (by rw [List.length_append, u64le_length])
  have hlen : ¬ (u64le nonce.length ++ nonce ++ P.encrypt k nonce c1).length < 8 := by
    simp only [List.length_append, u64le_length]
    omega
  have hlenN : ¬ (u64le nonce.length ++ nonce ++ P.encrypt k nonce c1).length <
      8 + nonce.length := by
    simp only [List.length_append, u64le_length]
    omega
  rcases hinv with ⟨rfl, rfl⟩ | ⟨rfl, rfl⟩
  · rw [unprocessContentsFromFlags]
    dsimp only
    rw [if_pos (by decide),
      eccStage_roundTrip P hrs hrsl e he (u64le nonce.length ++ nonce ++
        P.encrypt k nonce c1)]
    dsimp only
    rw [if_neg (by decide), if_neg hlen, hread, if_neg hlenN, hdrop8, hdropN,
      List.take_left, hdec k nonce c1 hk]
    dsimp only
    rw [if_neg (by decide)]
  · rw [unprocessContentsFromFlags]
    dsimp only
    rw [if_pos (by decide),
      eccStage_roundTrip P hrs hrsl e he (u64le nonce.length ++ nonce ++
        P.encrypt k nonce (P.comp orig))]
    dsimp only
    rw [if_neg (by decide), if_neg hlen, hread, if_neg hlenN, hdrop8, hdropN,
      List.take_left, hdec k nonce (P.comp orig) hk]
    dsimp only
    rw [if_pos (by decide), hcomp orig]

theorem unprocess_ecc_encrypted_wrongKey (P : Prims) (hwk : P.wrongKeyFails)
    (hrs : P.rsRoundTrip) (hrsl : P.rsLen) (e : Nat) (he : e ≤ 254)
    (k k2 nonce c1 : List Nat) (b1 : Nat) (hb1 : b1 = 0 ∨ b1 = 1)
    (hk : k.length = 32) (hk2 : k2.length = 32) (hne : k2 ≠ k)
    (hn : nonce.length < 2 ^ 64) :
    unprocessContentsFromFlags P (((b1 ||| encryptionBit) ||| errorCorrectionBit) |||
        reservedBits)
      (P.rsEncode 4 (u64le e) ++
        ((chunksOf (255 - e)
          (u64le nonce.length ++ nonce ++ P.encrypt k nonce c1)).map
            (P.rsEncode e)).flatten)
      (some k2) = some (.error .fileDecrypt) := by
  have hread : readU64LE (u64le nonce.length ++ nonce ++ P.encrypt k nonce c1) =
      nonce.length := by
    rw [List.append_assoc]
    exact readU64LE_u64le _ _ hn
  have hdrop8 : (u64le nonce.length ++ nonce ++ P.encrypt k nonce c1).drop 8 =
      nonce ++ P.encrypt k nonce c1 := by
    rw [List.append_assoc]
    exact List.drop_left' (u64le_length nonce.length)
  have hdropN : (u64le nonce.length ++ nonce ++ P.encrypt k nonce c1).drop
      (8 + nonce.length) = P.encrypt k nonce c1 :=
    List.drop_left' (by rw [List.length_append, u64le_length])
  have hlen : ¬ (u64le nonce.length ++ nonce ++ P.encrypt k nonce c1).length < 8 := by
    simp only [List.length_append, u64le_length]
    omega
  have hlenN : ¬ (u64le nonce.length ++ nonce ++ P.encrypt k nonce c1).length <
      8 + nonce.length := by
    simp only [List.length_append, u64le_length]
    omega
  rcases hb1 with rfl | rfl
  · rw [unprocessContentsFromFlags]
    dsimp only
    rw [if_pos (by decide),
      eccStage_roundTrip P hrs hrsl e he (u64le nonce.length ++ nonce ++
        P.encrypt k nonce c1)]
    dsimp only
    rw [if_neg (by decide), if_neg hlen, hread, if_neg hlenN, hdrop8, hdropN,
      List.take_left, hwk k k2 nonce c1 hk hk2 hne]
  · rw [unprocessContentsFromFlags]
    dsimp only
    rw [if_pos (by decide),
      eccStage_roundTrip P hrs hrsl e he (u64le nonce.length ++ nonce ++
        P.encrypt k nonce c1)]
    dsimp only
    rw [if_neg (by decide), if_neg hlen, hread, if_neg hlenN, hdrop8, hdropN,
      List.take_left, hwk k k2 nonce c1 hk hk2 hne]

theorem toyPrims_compRoundTrip : toyPrims.compRoundTrip := fun _ => rfl

theorem toyPrims_decRoundTrip : toyPrims.decRoundTrip := by
  intro k nonce m hk
  show (if (k ++ m).take 32 = k then some ((k ++ m).drop 32) else none) = some m
  rw [List.take_left' hk, if_pos rfl, List.drop_left' hk]

theorem toyPrims_wrongKeyFails : toyPrims.wrongKeyFails := by
  intro k k2 nonce m hk hk2 hne
  show (if (k ++ m).take 32 = k2 then some ((k ++ m).drop 32) else none) = none
  rw [List.take_left' hk, if_neg (fun h => hne h.symm)]

theorem toyPrims_rsRoundTrip : toyPrims.rsRoundTrip := by
  intro ecc d
  show toyPrims.rsDecode ecc (toyPrims.rsEncode ecc d) = some d
  dsimp only [toyPrims]
  congr 1
  rw [List.length_append, List.length_replicate,
    show d.length + ecc - ecc = d.length from by omega, List.take_left]

theorem toyPrims_rsLen : toyPrims.rsLen := by
  intro ecc d
  show (d ++ List.replicate ecc 0).length = d.length + ecc
  rw [List.length_append, List.length_replicate]

/-- C2, corrected: for every compression mode, optional 32-byte key and
optional error-correction size `e ≤ 254` (fractions `p < 1`), the forward
pipeline succeeds and the inverse pipeline with the same key returns exactly
the input, while any other 32-byte key fails with the decrypt error.  The
original claim also admits `p = 1` (`ecc_size = 255`): there the forward
pipeline panics — `contents.chunks(0)` — before producing anything (see the
counterexample).  The external crates enter through the stated contracts of
`Prims`. -/
theorem pipeline_roundTrip (P : Prims) (hcomp : P.compRoundTrip)
    (hdec : P.decRoundTrip) (hwk : P.wrongKeyFails) (hrs : P.rsRoundTrip)
    (hrsl : P.rsLen) (flags : DataFlags) (nonce c : List Nat)
    (hkey : ∀ k, flags.encryptionKey = some k → k.length = 32)
    (hecc : ∀ e, flags.errorCorrection = some e → e ≤ 254)
    (hn : nonce.length < 2 ^ 64) :
    ∃ payload bits,
      processContentAndGenerateFlags P flags nonce c = some (payload, bits) ∧
      unprocessContentsFromFlags P bits payload flags.encryptionKey =
        some (.ok c) ∧
      (∀ k k2, flags.encryptionKey = some k → k2.length = 32 → k2 ≠ k →
        unprocessContentsFromFlags P bits payload (some k2) =
          some (.error .fileDecrypt)) := by
  rcases flags with ⟨comp, key, eccO⟩
  rcases comp with _ | b
  · by_cases hlt : (P.comp c).length < c.length
    · rcases key with _ | k
      · rcases eccO with _ | e
        · have hfwd : processContentAndGenerateFlags P ⟨.automatic, none, none⟩ nonce c =
              some ((P.comp c), compressionBit ||| reservedBits) := by
            rw [processContentAndGenerateFlags]
            dsimp only
            rw [if_pos hlt]
            dsimp only
            rw [if_pos rfl]
          refine ⟨_, _, hfwd, unprocess_plain P hcomp c (P.comp c) compressionBit (.inr ⟨rfl, rfl⟩), ?_⟩
          intro k0 k2 hk0 _ _
          exact Option.noConfusion (show (none : Option (List Nat)) = some k0 from hk0)
        · have hfwd : processContentAndGenerateFlags P ⟨.automatic, none, some e⟩ nonce c =
              some (P.rsEncode 4 (u64le e) ++ ((chunksOf (255 - e) ((P.comp c))).map (P.rsEncode e)).flatten, (compressionBit ||| errorCorrectionBit) ||| reservedBits) := by
            rw [processContentAndGenerateFlags]
            dsimp only
            rw [if_pos hlt]
            dsimp only
            rw [if_pos rfl]
            rw [if_neg (show ¬ (255 - e = 0) from by have := hecc e rfl; omega)]
          refine ⟨_, _, hfwd, unprocess_ecc_plain P hcomp hrs hrsl e (hecc e rfl) c (P.comp c) compressionBit (.inr ⟨rfl, rfl⟩), ?_⟩
          intro k0 k2 hk0 _ _
          exact Option.noConfusion (show (none : Option (List Nat)) = some k0 from hk0)
      · rcases eccO with _ | e
        · have hfwd : processContentAndGenerateFlags P ⟨.automatic, some k, none⟩ nonce c =
              some (u64le nonce.length ++ nonce ++ P.encrypt k nonce (P.comp c), (compressionBit ||| encryptionBit) ||| reservedBits) := by
            rw [processContentAndGenerateFlags]
            dsimp only
            rw [if_pos hlt]
            dsimp only
            rw [if_pos rfl]
          refine ⟨_, _, hfwd, unprocess_encrypted P hcomp hdec k nonce c (P.comp c) compressionBit (hkey k rfl) hn (.inr ⟨rfl, rfl⟩), ?_⟩
          intro k0 k2 hk0 hk2l hneq
          have hk0b : k = k0 := Option.some.inj hk0
          subst hk0b
          exact unprocess_encrypted_wrongKey P hwk k k2 nonce (P.comp c) compressionBit (.inr rfl) (hkey k rfl) hk2l hneq hn
        · have hfwd : processContentAndGenerateFlags P ⟨.automatic, some k, some e⟩ nonce c =
              some (P.rsEncode 4 (u64le e) ++ ((chunksOf (255 - e) (u64le nonce.length ++ nonce ++ P.encrypt k nonce (P.comp c))).map (P.rsEncode e)).flatten, ((compressionBit ||| encryptionBit) ||| errorCorrectionBit) ||| reservedBits) := by
            rw [processContentAndGenerateFlags]
            dsimp only
            rw [if_pos hlt]
            dsimp only
            rw [if_pos rfl]
            rw [if_neg (show ¬ (255 - e = 0) from by have := hecc e rfl; omega)]
          refine ⟨_, _, hfwd, unprocess_ecc_encrypted P hcomp hdec hrs hrsl e (hecc e rfl) k nonce c (P.comp c) compressionBit (hkey k rfl) hn (.inr ⟨rfl, rfl⟩), ?_⟩
          intro k0 k2 hk0 hk2l hneq
          have hk0b : k = k0 := Option.some.inj hk0
          subst hk0b
          exact unprocess_ecc_encrypted_wrongKey P hwk hrs hrsl e (hecc e rfl) k k2 nonce (P.comp c) compressionBit (.inr rfl) (hkey k rfl) hk2l hneq hn
    · rcases key with _ | k
      · rcases eccO with _ | e
        · have hfwd : processContentAndGenerateFlags P ⟨.automatic, none, none⟩ nonce c =
              some (c, 0 ||| reservedBits) := by
            rw [processContentAndGenerateFlags]
            dsimp only
            rw [if_neg hlt]
          refine ⟨_, _, hfwd, unprocess_plain P hcomp c c 0 (.inl ⟨rfl, rfl⟩), ?_⟩
          intro k0 k2 hk0 _ _
          exact Option.noConfusion (show (none : Option (List Nat)) = some k0 from hk0)
        · have hfwd : processContentAndGenerateFlags P ⟨.automatic, none, some e⟩ nonce c =
              some (P.rsEncode 4 (u64le e) ++ ((chunksOf (255 - e) (c)).map (P.rsEncode e)).flatten, (0 ||| errorCorrectionBit) ||| reservedBits) := by
            rw [processContentAndGenerateFlags]
            dsimp only
            rw [if_neg hlt]
            dsimp only
            rw [if_neg (show ¬ (255 - e = 0) from by have := hecc e rfl; omega)]
          refine ⟨_, _, hfwd, unprocess_ecc_plain P hcomp hrs hrsl e (hecc e rfl) c c 0 (.inl ⟨rfl, rfl⟩), ?_⟩
          intro k0 k2 hk0 _ _
          exact Option.noConfusion (show (none : Option (List Nat)) = some k0 from hk0)
      · rcases eccO with _ | e
        · have hfwd : processContentAndGenerateFlags P ⟨.automatic, some k, none⟩ nonce c =
              some (u64le nonce.length ++ nonce ++ P.encrypt k nonce c, (0 ||| encryptionBit) ||| reservedBits) := by
            rw [processContentAndGenerateFlags]
            dsimp only
            rw [if_neg hlt]
          refine ⟨_, _, hfwd, unprocess_encrypted P hcomp hdec k nonce c c 0 (hkey k rfl) hn (.inl ⟨rfl, rfl⟩), ?_⟩
          intro k0 k2 hk0 hk2l hneq
          have hk0b : k = k0 := Option.some.inj hk0
          subst hk0b
          exact unprocess_encrypted_wrongKey P hwk k k2 nonce c 0 (.inl rfl) (hkey k rfl) hk2l hneq hn
        · have hfwd : processContentAndGenerateFlags P ⟨.automatic, some k, some e⟩ nonce c =
              some (P.rsEncode 4 (u64le e) ++ ((chunksOf (255 - e) (u64le nonce.length ++ nonce ++ P.encrypt k nonce c)).map (P.rsEncode e)).flatten, ((0 ||| encryptionBit) ||| errorCorrectionBit) ||| reservedBits) := by
            rw [processContentAndGenerateFlags]
            dsimp only
            rw [if_neg hlt]
            dsimp only
            rw [if_neg (show ¬ (255 - e = 0) from by have := hecc e rfl; omega)]
          refine ⟨_, _, hfwd, unprocess_ecc_encrypted P hcomp hdec hrs hrsl e (hecc e rfl) k nonce c c 0 (hkey k rfl) hn (.inl ⟨rfl, rfl⟩), ?_⟩
          intro k0 k2 hk0 hk2l hneq
          have hk0b : k = k0 := Option.some.inj hk0
          subst hk0b
          exact unprocess_ecc_encrypted_wrongKey P hwk hrs hrsl e (hecc e rfl) k k2 nonce c 0 (.inl rfl) (hkey k rfl) hk2l hneq hn
  · cases b
    · rcases key with _ | k
      · rcases eccO with _ | e
        · have hfwd : processContentAndGenerateFlags P ⟨.forced false, none, none⟩ nonce c =
              some (c, 0 ||| reservedBits) := by
            rw [processContentAndGenerateFlags]
          refine ⟨_, _, hfwd, unprocess_plain P hcomp c c 0 (.inl ⟨rfl, rfl⟩), ?_⟩
          intro k0 k2 hk0 _ _
          exact Option.noConfusion (show (none : Option (List Nat)) = some k0 from hk0)
        · have hfwd : processContentAndGenerateFlags P ⟨.forced false, none, some e⟩ nonce c =
              some (P.rsEncode 4 (u64le e) ++ ((chunksOf (255 - e) (c)).map (P.rsEncode e)).flatten, (0 ||| errorCorrectionBit) ||| reservedBits) := by
            rw [processContentAndGenerateFlags]
            dsimp only
            rw [if_neg (show ¬ (255 - e = 0) from by have := hecc e rfl; omega)]
          refine ⟨_, _, hfwd, unprocess_ecc_plain P hcomp hrs hrsl e (hecc e rfl) c c 0 (.inl ⟨rfl, rfl⟩), ?_⟩
          intro k0 k2 hk0 _ _
          exact Option.noConfusion (show (none : Option (List Nat)) = some k0 from hk0)
      · rcases eccO with _ | e
        · have hfwd : processContentAndGenerateFlags P ⟨.forced false, some k, none⟩ nonce c =
              some (u64le nonce.length ++ nonce ++ P.encrypt k nonce c, (0 ||| encryptionBit) ||| reservedBits) := by
            rw [processContentAndGenerateFlags]
          refine ⟨_, _, hfwd, unprocess_encrypted P hcomp hdec k nonce c c 0 (hkey k rfl) hn (.inl ⟨rfl, rfl⟩), ?_⟩
          intro k0 k2 hk0 hk2l hneq
          have hk0b : k = k0 := Option.some.inj hk0
          subst hk0b
          exact unprocess_encrypted_wrongKey P hwk k k2 nonce c 0 (.inl rfl) (hkey k rfl) hk2l hneq hn
        · have hfwd : processContentAndGenerateFlags P ⟨.forced false, some k, some e⟩ nonce c =
              some (P.rsEncode 4 (u64le e) ++ ((chunksOf (255 - e) (u64le nonce.length ++ nonce ++ P.encrypt k nonce c)).map (P.rsEncode e)).flatten, ((0 ||| encryptionBit) ||| errorCorrectionBit) ||| reservedBits) := by
            rw [processContentAndGenerateFlags]
            dsimp only
            rw [if_neg (show ¬ (255 - e = 0) from by have := hecc e rfl; omega)]
          refine ⟨_, _, hfwd, unprocess_ecc_encrypted P hcomp hdec hrs hrsl e (hecc e rfl) k nonce c c 0 (hkey k rfl) hn (.inl ⟨rfl, rfl⟩), ?_⟩
          intro k0 k2 hk0 hk2l hneq
          have hk0b : k = k0 := Option.some.inj hk0
          subst hk0b
          exact unprocess_ecc_encrypted_wrongKey P hwk hrs hrsl e (hecc e rfl) k k2 nonce c 0 (.inl rfl) (hkey k rfl) hk2l hneq hn
    · rcases key with _ | k
      · rcases eccO with _ | e
        · have hfwd : processContentAndGenerateFlags P ⟨.forced true, none, none⟩ nonce c =
              some ((P.comp c), compressionBit ||| reservedBits) := by
            rw [processContentAndGenerateFlags]
            dsimp only
            rw [if_neg (by decide : ¬ (false = true))]
          refine ⟨_, _, hfwd, unprocess_plain P hcomp c (P.comp c) compressionBit (.inr ⟨rfl, rfl⟩), ?_⟩
          intro k0 k2 hk0 _ _
          exact Option.noConfusion (show (none : Option (List Nat)) = some k0 from hk0)
        · have hfwd : processContentAndGenerateFlags P ⟨.forced true, none, some e⟩ nonce c =
              some (P.rsEncode 4 (u64le e) ++ ((chunksOf (255 - e) ((P.comp c))).map (P.rsEncode e)).flatten, (compressionBit ||| errorCorrectionBit) ||| reservedBits) := by
            rw [processContentAndGenerateFlags]
            dsimp only
            rw [if_neg (by decide : ¬ (false = true))]
            rw [if_neg (show ¬ (255 - e = 0) from by have := hecc e rfl; omega)]
          refine ⟨_, _, hfwd, unprocess_ecc_plain P hcomp hrs hrsl e (hecc e rfl) c (P.comp c) compressionBit (.inr ⟨rfl, rfl⟩), ?_⟩
          intro k0 k2 hk0 _ _
          exact Option.noConfusion (show (none : Option (List Nat)) = some k0 from hk0)
      · rcases eccO with _ | e
        · have hfwd : processContentAndGenerateFlags P ⟨.forced true, some k, none⟩ nonce c =
              some (u64le nonce.length ++ nonce ++ P.encrypt k nonce (P.comp c), (compressionBit ||| encryptionBit) ||| reservedBits) := by
            rw [processContentAndGenerateFlags]
            dsimp only
            rw [if_neg (by decide : ¬ (false = true))]
          refine ⟨_, _, hfwd, unprocess_encrypted P hcomp hdec k nonce c (P.comp c) compressionBit (hkey k rfl) hn (.inr ⟨rfl, rfl⟩), ?_⟩
          intro k0 k2 hk0 hk2l hneq
          have hk0b : k = k0 := Option.some.inj hk0
          subst hk0b
          exact unprocess_encrypted_wrongKey P hwk k k2 nonce (P.comp c) compressionBit (.inr rfl) (hkey k rfl) hk2l hneq hn
        · have hfwd : processContentAndGenerateFlags P ⟨.forced true, some k, some e⟩ nonce c =
              some (P.rsEncode 4 (u64le e) ++ ((chunksOf (255 - e) (u64le nonce.length ++ nonce ++ P.encrypt k nonce (P.comp c))).map (P.rsEncode e)).flatten, ((compressionBit ||| encryptionBit) ||| errorCorrectionBit) ||| reservedBits) := by
            rw [processContentAndGenerateFlags]
            dsimp only
            rw [if_neg (by decide : ¬ (false = true))]
            rw [if_neg (show ¬ (255 - e = 0) from by have := hecc e rfl; omega)]
          refine ⟨_, _, hfwd, unprocess_ecc_encrypted P hcomp hdec hrs hrsl e (hecc e rfl) k nonce c (P.comp c) compressionBit (hkey k rfl) hn (.inr ⟨rfl, rfl⟩), ?_⟩
          intro k0 k2 hk0 hk2l hneq
          have hk0b : k = k0 := Option.some.inj hk0
          subst hk0b
          exact unprocess_ecc_encrypted_wrongKey P hwk hrs hrsl e (hecc e rfl) k k2 nonce (P.comp c) compressionBit (.inr rfl) (hkey k rfl) hk2l hneq hn

/-- Witness for C2 on `toyPrims`: automatic compression, the all-7s 32-byte
key, a 12-byte nonce and error-correction size `10` on the input `[1, 2, 3]`. -/
theorem pipeline_roundTrip_witness :
    toyPrims.compRoundTrip ∧ toyPrims.decRoundTrip ∧ toyPrims.wrongKeyFails ∧
    toyPrims.rsRoundTrip ∧ toyPrims.rsLen ∧
    (∀ k, (some (List.replicate 32 7) : Option (List Nat)) = some k →
      k.length = 32) ∧
    (∀ e, (some 10 : Option Nat) = some e → e ≤ 254) ∧
    (List.replicate 12 3 : List Nat).length < 2 ^ 64 ∧
    (∃ payload bits,
      processContentAndGenerateFlags toyPrims
          ⟨.automatic, some (List.replicate 32 7), some 10⟩ (List.replicate 12 3)
          [1, 2, 3] = some (payload, bits) ∧
      unprocessContentsFromFlags toyPrims bits payload
          (some (List.replicate 32 7)) = some (.ok [1, 2, 3]) ∧
      (∀ k k2, (some (List.replicate 32 7) : Option (List Nat)) = some k →
        k2.length = 32 → k2 ≠ k →
        unprocessContentsFromFlags toyPrims bits payload (some k2) =
          some (.error .fileDecrypt))) :=
  ⟨toyPrims_compRoundTrip, toyPrims_decRoundTrip, toyPrims_wrongKeyFails,
   toyPrims_rsRoundTrip, toyPrims_rsLen,
   fun k h => by injection h with h2; rw [← h2]; rfl,
   fun e h => by injection h with h2; omega,
   by decide,
   pipeline_roundTrip toyPrims toyPrims_compRoundTrip toyPrims_decRoundTrip
     toyPrims_wrongKeyFails toyPrims_rsRoundTrip toyPrims_rsLen
     ⟨.automatic, some (List.replicate 32 7), some 10⟩ (List.replicate 12 3)
     [1, 2, 3]
     (fun k h => by injection h with h2; rw [← h2]; rfl)
     (fun e h => by injection h with h2; omega) (by decide)⟩

/-- Counterexample to C2 as stated: the error-correction fraction `p = 1`
lies in the claimed range `(0, 1]` and maps to `ecc_size = 255`, where the
forward pipeline panics on `contents.chunks(0)` — no payload is ever
produced, so no round trip exists. -/
theorem pipeline_ecc_one_counterexample :
    processContentAndGenerateFlags toyPrims ⟨.forced false, none, some 255⟩
      [] [1] = none := by rfl

end Pfa
